import Mathlib

/-!
Shallow embedding of `memorice.py`: the Memorice (memory / concentration)
game model, the A* search-state abstraction, successor generation,
heuristic, the A* planner with its expansion budget, and the greedy
fallback policy.  Machine integers are modelled as `Nat`/`Int`; Python
dicts are association lists keeping insertion order; Python sets are
duplicate-free lists; `heapq` pops the least `Node` under the tuple order
on `(f, g, state, ...)`.
-/

/-- A board coordinate `(row, column)`, as in the Python `(r, c)` tuples. -/
abbrev Pos := Nat × Nat

/-- One entry of the remembered-cards mapping: a value together with the
positions it was seen at (`(val, tuple_of_positions)` in the source). -/
abbrev Entry := Nat × List Pos

/-- A search state: `(matched_tuple, seen_items_tuple)` as used by
`state_to_key` / `successors_state` / `astar_plan`. -/
abbrev SState := List Pos × List Entry

/-- An action `("turn", (p1, p2))` or `("match", (p1, p2))`. -/
abbrev Act := String × Pos × Pos

set_option synthInstance.maxSize 512 in
instance : DecidableEq (Act × SState × Nat) := by infer_instance

/-! ### Python tuple comparison (used by `sorted` and by `heapq`) -/

/-- Python `<=` on `(r, c)` pairs: lexicographic. -/
def posLeB (a b : Pos) : Bool := a.1 < b.1 || (a.1 == b.1 && a.2 ≤ b.2)

/-- Python `<` on `(r, c)` pairs: strict lexicographic. -/
def posLtB (a b : Pos) : Bool := a.1 < b.1 || (a.1 == b.1 && a.2 < b.2)

/-- Python `<` on tuples of positions (element-wise, shorter prefix first). -/
def plistLtB : List Pos → List Pos → Bool
  | [], [] => false
  | [], _ :: _ => true
  | _ :: _, [] => false
  | a :: as, b :: bs => posLtB a b || (a == b && plistLtB as bs)

/-- Python `<=` on tuples of positions. -/
def plistLeB : List Pos → List Pos → Bool
  | [], _ => true
  | _ :: _, [] => false
  | a :: as, b :: bs => posLtB a b || (a == b && plistLeB as bs)

/-- Python `<=` on `(val, positions)` entries. -/
def entryLeB (a b : Entry) : Bool := a.1 < b.1 || (a.1 == b.1 && plistLeB a.2 b.2)

/-- Python `<` on `(val, positions)` entries. -/
def entryLtB (a b : Entry) : Bool := a.1 < b.1 || (a.1 == b.1 && plistLtB a.2 b.2)

/-- Python `<` on lists of entries. -/
def elistLtB : List Entry → List Entry → Bool
  | [], [] => false
  | [], _ :: _ => true
  | _ :: _, [] => false
  | a :: as, b :: bs => entryLtB a b || (a == b && elistLtB as bs)

/-- Python `<` on whole states `(matched_tuple, seen_tuple)`. -/
def stateLtB (s t : SState) : Bool :=
  plistLtB s.1 t.1 || (s.1 == t.1 && elistLtB s.2 t.2)

/-- The `≤` relation on positions, as a `Prop`, for `insertionSort`. -/
def posLe (a b : Pos) : Prop := posLeB a b = true

/-- The `≤` relation on entries, as a `Prop`, for `insertionSort`. -/
def entryLe (a b : Entry) : Prop := entryLeB a b = true

instance : DecidableRel posLe := fun a b => by unfold posLe; infer_instance
instance : DecidableRel entryLe := fun a b => by unfold entryLe; infer_instance

/-- `sorted(...)` on a list of positions. -/
def sortPos (l : List Pos) : List Pos := l.insertionSort posLe

/-- `sorted(...)` on a list of `(val, positions)` entries. -/
def sortEntries (l : List Entry) : List Entry := l.insertionSort entryLe

/-! ### The live game (`MemoriceGame`) -/

/-- The live game state: board values, matched positions (a Python set,
modelled as a duplicate-free list), move counter and the seen-cards
memory (a Python dict, modelled as an insertion-ordered association
list). -/
structure Game where
  size : Nat
  board : List (List Nat)
  matched : List Pos
  moves : Nat
  seen : List (Pos × Nat)
deriving Repr, DecidableEq

/-- `total_pairs = (size * size) // 2`. -/
def Game.total_pairs (g : Game) : Nat := g.size * g.size / 2

/-- `value_at(pos)`: the card value at a position. -/
def value_at (g : Game) (p : Pos) : Nat := (g.board.getD p.1 []).getD p.2 0

/-- `all_positions()`: row-major enumeration of the board. -/
def all_positions (g : Game) : List Pos :=
  (List.range g.size).flatMap (fun r => (List.range g.size).map (fun c => (r, c)))

/-- Python set insertion (`set.add`): append the element if absent. -/
def setAdd (s : List Pos) (p : Pos) : List Pos := if p ∈ s then s else s ++ [p]

/-- Python dict assignment `d[k] = v`: replace in place or append. -/
def dictInsert (d : List (Pos × Nat)) (k : Pos) (v : Nat) : List (Pos × Nat) :=
  if d.any (fun e => e.1 == k) then d.map (fun e => if e.1 == k then (e.1, v) else e)
  else d ++ [(k, v)]

/-- Python `d.pop(k, None)`: drop the entry with the given key. -/
def dropKey (d : List (Pos × Nat)) (k : Pos) : List (Pos × Nat) :=
  d.filter (fun e => ¬ e.1 = k)

/-- `apply_turn(pos1, pos2)`: flip two cards, record them in `seen`,
and on a true pair move them into `matched` and out of `seen`.
Returns the updated game and whether the two cards matched. -/
def apply_turn (g : Game) (p1 p2 : Pos) : Game × Bool :=
  let v1 := value_at g p1
  let v2 := value_at g p2
  let seen1 := if p1 ∈ g.matched then g.seen else dictInsert g.seen p1 v1
  let seen2 := if p2 ∈ g.matched then seen1 else dictInsert seen1 p2 v2
  if v1 = v2 ∧ p1 ≠ p2 then
    ({ g with moves := g.moves + 1,
              matched := setAdd (setAdd g.matched p1) p2,
              seen := dropKey (dropKey seen2 p1) p2 }, true)
  else
    ({ g with moves := g.moves + 1, seen := seen2 }, false)

/-- `is_finished()`: all pairs found. -/
def is_finished (g : Game) : Bool := g.matched.length / 2 == g.total_pairs

/-- Append `p` to the group of value `v` (`defaultdict(list)` append). -/
def gappend (m : List Entry) (v : Nat) (p : Pos) : List Entry :=
  if m.any (fun e => e.1 == v) then m.map (fun e => if e.1 == v then (e.1, e.2 ++ [p]) else e)
  else m ++ [(v, [p])]

/-- `seen_pairs()`: group the still-unmatched seen positions by value,
in dict insertion order. -/
def seen_pairs (g : Game) : List Entry :=
  g.seen.foldl (fun acc pv => if pv.1 ∈ g.matched then acc else gappend acc pv.2 pv.1) []

/-- The initial search state built in the main loop:
`(tuple(sorted(matched)), tuple(sorted((v, tuple(sorted(ps))) ...)))`. -/
def snapshot (g : Game) : SState :=
  (sortPos g.matched,
   sortEntries ((seen_pairs g).map (fun e => (e.1, sortPos e.2))))

/-- Replaying a plan: apply each action's two positions with `apply_turn`. -/
def replay (g : Game) (plan : List Act) : Game :=
  plan.foldl (fun gg a => (apply_turn gg a.2.1 a.2.2).1) g

/-! ### Search-state canonicalization and heuristic -/

/-- `state_to_key(state)`: sort the matched tuple, sort each value's
position list, and sort the `(value, positions)` entries. -/
def state_to_key (s : SState) : SState :=
  (sortPos s.1, sortEntries (s.2.map (fun e => (e.1, sortPos e.2))))

/-- `heuristic_state(state, total_pairs) = total_pairs - len(matched) // 2`. -/
def heuristic_state (s : SState) (total_pairs : Nat) : Int :=
  (total_pairs : Int) - ((s.1.length / 2 : Nat) : Int)

/-! ### Successor generation -/

/-- Python dict construction from `(key, value)` pairs: the first
occurrence of a key fixes its position, the last fixes its value. -/
def dinsert (acc : List Entry) (e : Entry) : List Entry :=
  if acc.any (fun e2 => e2.1 == e.1) then acc.map (fun e2 => if e2.1 == e.1 then e else e2)
  else acc ++ [e]

/-- `{val: list(poses) for val, poses in seen}`. -/
def toDict (l : List Entry) : List Entry := l.foldl dinsert []

/-- `sorted(set(...))` over positions. -/
def dedupSortPos (l : List Pos) : List Pos := sortPos l.dedup

/-- Final packaging of a successor's seen-map:
`tuple(sorted((k, tuple(sorted(v))) for k, v in new_seen.items()))`. -/
def canonSeen (m : List Entry) : List Entry :=
  sortEntries (m.map (fun e => (e.1, sortPos e.2)))

/-- `new_seen.setdefault(v, []); if p not in new_seen[v]: new_seen[v].append(p)`. -/
def addPos (m : List Entry) (v : Nat) (p : Pos) : List Entry :=
  if m.any (fun e => e.1 == v) then
    m.map (fun e => if e.1 == v then (e.1, if p ∈ e.2 then e.2 else e.2 ++ [p]) else e)
  else m ++ [(v, [p])]

/-- `new_seen[v] = [x for x in new_seen[v] if x not in {c, d}]`. -/
def removeFrom (m : List Entry) (v : Nat) (c d : Pos) : List Entry :=
  m.map (fun e => if e.1 = v then (e.1, e.2.filter (fun x => ¬ (x = c ∨ x = d))) else e)

/-- `if not new_seen[v]: del new_seen[v]`. -/
def delIfEmpty (m : List Entry) (v : Nat) : List Entry :=
  m.filter (fun e => ¬ (e.1 = v ∧ e.2 = []))

/-- Branching cap `K = 6` for exploration. -/
def K : Nat := 6

/-- One speculative `("turn", (c, d))` action: reveal both true values,
and migrate the pair into `matched` exactly when the values agree. -/
def turnResult (g : Game) (matched : List Pos) (seenMap : List Entry) (c d : Pos) :
    Act × SState × Nat :=
  let vc := value_at g c
  let vd := value_at g d
  let s2 := addPos (addPos seenMap vc c) vd d
  if vc = vd ∧ c ≠ d then
    (("turn", (c, d)),
     (dedupSortPos (matched ++ [c, d]), canonSeen (delIfEmpty (removeFrom s2 vc c d) vc)),
     1)
  else
    (("turn", (c, d)), (dedupSortPos matched, canonSeen s2), 1)

/-- Phase 1 of `successors_state`: one `("match", (p1, p2))` action per
value with at least two still-unmatched remembered positions. -/
def matchActions (matched : List Pos) (seenMap : List Entry) :
    List (Act × SState × Nat) :=
  seenMap.filterMap (fun e =>
    if 2 ≤ e.2.length then
      match e.2.filter (fun p => ¬ p ∈ matched) with
      | p1 :: p2 :: _ =>
        some (("match", (p1, p2)),
          (dedupSortPos (matched ++ [p1, p2]),
           canonSeen ((seenMap.map (fun e2 =>
              (e2.1, e2.2.filter (fun x => ¬ (x = p1 ∨ x = p2))))).filter
              (fun e2 => ¬ e2.2 = []))),
          1)
      | _ => none
    else none)

/-- Phase 2 of `successors_state`: exploratory turns; candidates are the
first `K` unseen unmatched positions (all unmatched ones if none are
unseen), each paired with every remembered unmatched position and with
the first `K` unmatched positions other than itself. -/
def explorationActions (g : Game) (matched : List Pos) (seenMap : List Entry) :
    List (Act × SState × Nat) :=
  let unmatched := (all_positions g).filter (fun p => ¬ p ∈ matched)
  let unseen0 := unmatched.filter (fun p =>
    ¬ (g.seen.any (fun pv => pv.1 == p)) ∧ ¬ p ∈ seenMap.flatMap (fun e => e.2))
  let unseen := if unseen0 = [] then unmatched else unseen0
  let candidates := unseen.take K
  let seenPositions := seenMap.flatMap (fun e => e.2.filter (fun p => ¬ p ∈ matched))
  candidates.flatMap (fun c =>
    (seenPositions.filterMap (fun d =>
      if d = c then none else some (turnResult g matched seenMap c d))) ++
    (((unmatched.filter (fun p => ¬ p = c)).take K).take K).map
      (fun d => turnResult g matched seenMap c d))

/-- `successors_state(state, game)`: known matches first and exclusively;
otherwise bounded exploration. Every transition has cost 1. -/
def successors_state (s : SState) (g : Game) : List (Act × SState × Nat) :=
  let matched := s.1
  let seenMap := toDict s.2
  let ma := matchActions matched seenMap
  if ma.isEmpty then explorationActions g matched seenMap else ma

/-! ### The A* planner -/

/-- A frontier node: `Node = namedtuple("Node", ["f","g","state","parent","action"])`. -/
structure Node where
  f : Int
  g : Nat
  state : SState
  parent : Option SState
  action : Option Act
deriving Repr, DecidableEq

/-- The `heapq` comparison prefix on nodes: `f`, then `g`, then `state`.
In every reachable frontier this prefix is distinct between any two
entries (two pushes of the same state have different `g`), so the heap's
least element is determined by it. -/
def nodeKeyLtB (a b : Node) : Bool :=
  a.f < b.f || (a.f == b.f && (a.g < b.g || (a.g == b.g && stateLtB a.state b.state)))

/-- `heapq.heappop`: remove the least node (earliest pushed among equals). -/
def popMin : List (Nat × Node) → Option ((Nat × Node) × List (Nat × Node))
  | [] => none
  | x :: xs =>
    match popMin xs with
    | none => some (x, [])
    | some (m, rest) => if nodeKeyLtB m.2 x.2 then some (m, x :: rest) else some (x, xs)

/-- `came_from` lookup. -/
def lookupCF (cf : List (SState × (Option SState × Option Act))) (k : SState) :
    Option (Option SState × Option Act) :=
  (cf.find? (fun e => e.1 = k)).map (fun e => e.2)

/-- Dict write `m[k] = v` on `came_from` / `gscore`-style maps. -/
def dictSet {β : Type} (m : List (SState × β)) (k : SState) (v : β) : List (SState × β) :=
  if m.any (fun e => e.1 == k) then m.map (fun e => if e.1 == k then (e.1, v) else e)
  else m ++ [(k, v)]

/-- `gscore.get(key, inf)` comparison: `tentative < gscore.get(k, inf)`. -/
def gscoreBeats (gs : List (SState × Nat)) (k : SState) (tentative : Nat) : Bool :=
  match gs.find? (fun e => e.1 = k) with
  | none => true
  | some e => tentative < e.2

/-- Walk `came_from` back to the root and return the action sequence in
forward order (the source appends while walking and then reverses).
The fuel bounds the walk; `came_from` links always descend in recorded
cost, so fuel `cf.length` suffices for every reachable table. -/
def reconstructPath (cf : List (SState × (Option SState × Option Act))) :
    Nat → SState → Option (List Act)
  | 0, _ => none
  | fuel + 1, k =>
    match lookupCF cf k with
    | none => none
    | some (none, _) => some []
    | some (some pk, some a) => (reconstructPath cf fuel pk).map (fun p => p ++ [a])
    | some (some _, none) => none

/-- One expansion: fold the successor triples into the frontier,
`came_from` and `gscore` (`counter` numbers pushes in order). -/
def expandStep (g : Game) (parentKey : SState) (parentG : Nat)
    (acc : List (Nat × Node) × List (SState × (Option SState × Option Act)) ×
           List (SState × Nat) × Nat)
    (x : Act × SState × Nat) :
    List (Nat × Node) × List (SState × (Option SState × Option Act)) ×
    List (SState × Nat) × Nat :=
  let (frontier, cameFrom, gscore, counter) := acc
  let newKey := state_to_key x.2.1
  let tentative := parentG + x.2.2
  if gscoreBeats gscore newKey tentative then
    let h := heuristic_state x.2.1 g.total_pairs
    let f := (tentative : Int) + h
    (frontier ++ [(counter, ⟨f, tentative, x.2.1, some parentKey, some x.1⟩)],
     dictSet cameFrom newKey (some parentKey, some x.1),
     dictSet gscore newKey tentative,
     counter + 1)
  else acc

/-- The A* main loop.  `budget` is the number of expansions still
allowed (`max_expansions - expansions`); the source increments an
expansion counter after the goal test and gives up once it exceeds
`max_expansions`.  The returned trace records `(f, push index)` of every
popped node, in pop order. -/
def astarLoop (g : Game) :
    Nat → List (Nat × Node) → List (SState × (Option SState × Option Act)) →
    List (SState × Nat) → Nat → List (Int × Nat) →
    List (Int × Nat) × Option (List Act)
  | budget, frontier, cameFrom, gscore, counter, trace =>
    match popMin frontier with
    | none => (trace, none)
    | some ((idx, node), rest) =>
      let trace' := trace ++ [(node.f, idx)]
      let key := state_to_key node.state
      if node.state.1.length / 2 = g.total_pairs then
        (trace', reconstructPath cameFrom cameFrom.length key)
      else
        match budget with
        | 0 => (trace', none)
        | b + 1 =>
          let acc := (successors_state node.state g).foldl
            (expandStep g key node.g) (rest, cameFrom, gscore, counter)
          astarLoop g b acc.1 acc.2.1 acc.2.2.1 acc.2.2.2 trace'

/-- `astar_plan` with its pop trace: seed the frontier, `came_from` and
`gscore` with the initial state and run the loop. -/
def astar_core (initial : SState) (g : Game) (maxExpansions : Nat) :
    List (Int × Nat) × Option (List Act) :=
  let h0 := heuristic_state initial g.total_pairs
  astarLoop g maxExpansions
    [(0, ⟨h0, 0, initial, none, none⟩)]
    [(state_to_key initial, (none, none))]
    [(state_to_key initial, 0)]
    1 []

/-- `astar_plan(initial_state, game, max_expansions)`: the plan, or
`None` on budget exhaustion / empty frontier. -/
def astar_plan (initial : SState) (g : Game) (maxExpansions : Nat) :
    Option (List Act) :=
  (astar_core initial g maxExpansions).2

/-- The pop order of the A* frontier: `(f, push index)` per pop. -/
def astar_trace (initial : SState) (g : Game) (maxExpansions : Nat) :
    List (Int × Nat) :=
  (astar_core initial g maxExpansions).1

/-! ### Greedy fallback policy -/

/-- `random.choice(seq)`, with the ambient randomness made explicit as
an arbitrary index `r`. -/
def pick (l : List Pos) (r : Nat) : Pos := l.getD (r % l.length) (0, 0)

/-- `greedy_policy(game)`: match a remembered pair if one exists, else
flip a random unseen card and pair it with a remembered same-value card
or with another random unmatched card (repeating the card itself when it
is the only unmatched one left). -/
def greedy_policy (g : Game) (r1 r2 : Nat) : Act :=
  match (seen_pairs g).find? (fun e => 2 ≤ e.2.length) with
  | some e => ("turn", (e.2.getD 0 (0, 0), e.2.getD 1 (0, 0)))
  | none =>
    let unmatched := (all_positions g).filter (fun p => ¬ p ∈ g.matched)
    let unseen0 := unmatched.filter (fun p => ¬ (g.seen.any (fun pv => pv.1 == p)))
    let unseen := if unseen0 = [] then unmatched else unseen0
    let p1 := pick unseen r1
    let v1 := value_at g p1
    match g.seen.find? (fun pv => pv.2 == v1 && ¬ pv.1 = p1 && ¬ pv.1 ∈ g.matched) with
    | some pv => ("turn", (p1, pv.1))
    | none =>
      let remaining := unmatched.filter (fun p => ¬ p = p1)
      if remaining = [] then ("turn", (p1, p1))
      else ("turn", (p1, pick remaining r2))

/-! ### Basic facts about the Python comparison orders -/

theorem posLeB_iff {a b : Pos} : posLeB a b = true ↔ a.1 < b.1 ∨ (a.1 = b.1 ∧ a.2 ≤ b.2) := by
  simp [posLeB]

theorem posLtB_iff {a b : Pos} : posLtB a b = true ↔ a.1 < b.1 ∨ (a.1 = b.1 ∧ a.2 < b.2) := by
  simp [posLtB]

theorem posLe_total (a b : Pos) : posLe a b ∨ posLe b a := by
  simp only [posLe, posLeB_iff]; omega

theorem posLe_trans {a b c : Pos} (h1 : posLe a b) (h2 : posLe b c) : posLe a c := by
  simp only [posLe, posLeB_iff] at *; omega

theorem posLe_antisymm {a b : Pos} (h1 : posLe a b) (h2 : posLe b a) : a = b := by
  simp only [posLe, posLeB_iff] at *
  have h3 : a.1 = b.1 ∧ a.2 = b.2 := by omega
  exact Prod.ext h3.1 h3.2

instance : IsTotal Pos posLe := ⟨posLe_total⟩
instance : IsTrans Pos posLe := ⟨fun _ _ _ => posLe_trans⟩
instance : IsAntisymm Pos posLe := ⟨fun _ _ => posLe_antisymm⟩

theorem posLtB_trichotomy (a b : Pos) : posLtB a b = true ∨ a = b ∨ posLtB b a = true := by
  simp only [posLtB_iff]
  rcases Nat.lt_trichotomy a.1 b.1 with h | h | h
  · exact Or.inl (Or.inl h)
  · rcases Nat.lt_trichotomy a.2 b.2 with h2 | h2 | h2
    · exact Or.inl (Or.inr ⟨h, h2⟩)
    · exact Or.inr (Or.inl (Prod.ext h h2))
    · exact Or.inr (Or.inr (Or.inr ⟨h.symm, h2⟩))
  · exact Or.inr (Or.inr (Or.inl h))

theorem posLtB_irrefl (a : Pos) : posLtB a a = false := by
  have : ¬ posLtB a a = true := by simp only [posLtB_iff]; omega
  simpa using this

theorem posLtB_trans {a b c : Pos} (h1 : posLtB a b = true) (h2 : posLtB b c = true) :
    posLtB a c = true := by
  simp only [posLtB_iff] at *; omega

theorem plistLeB_total (l1 l2 : List Pos) : plistLeB l1 l2 = true ∨ plistLeB l2 l1 = true := by
  induction l1 generalizing l2 with
  | nil => exact Or.inl rfl
  | cons a as ih =>
    cases l2 with
    | nil => exact Or.inr rfl
    | cons b bs =>
      simp only [plistLeB, Bool.or_eq_true, Bool.and_eq_true, beq_iff_eq]
      rcases posLtB_trichotomy a b with h | h | h
      · exact Or.inl (Or.inl h)
      · rcases ih bs with h2 | h2
        · exact Or.inl (Or.inr ⟨h, h2⟩)
        · exact Or.inr (Or.inr ⟨h.symm, h2⟩)
      · exact Or.inr (Or.inl h)

theorem plistLeB_trans {l1 l2 l3 : List Pos} (h1 : plistLeB l1 l2 = true)
    (h2 : plistLeB l2 l3 = true) : plistLeB l1 l3 = true := by
  induction l1 generalizing l2 l3 with
  | nil => rfl
  | cons a as ih =>
    cases l2 with
    | nil => simp [plistLeB] at h1
    | cons b bs =>
      cases l3 with
      | nil => simp [plistLeB] at h2
      | cons c cs =>
        simp only [plistLeB, Bool.or_eq_true, Bool.and_eq_true, beq_iff_eq] at *
        rcases h1 with h1 | ⟨rfl, h1⟩
        · rcases h2 with h2 | ⟨rfl, h2⟩
          · exact Or.inl (posLtB_trans h1 h2)
          · exact Or.inl h1
        · rcases h2 with h2 | ⟨rfl, h2⟩
          · exact Or.inl h2
          · exact Or.inr ⟨rfl, ih h1 h2⟩

theorem plistLeB_antisymm {l1 l2 : List Pos} (h1 : plistLeB l1 l2 = true)
    (h2 : plistLeB l2 l1 = true) : l1 = l2 := by
  induction l1 generalizing l2 with
  | nil =>
    cases l2 with
    | nil => rfl
    | cons b bs => simp [plistLeB] at h2
  | cons a as ih =>
    cases l2 with
    | nil => simp [plistLeB] at h1
    | cons b bs =>
      simp only [plistLeB, Bool.or_eq_true, Bool.and_eq_true, beq_iff_eq] at h1 h2
      rcases h1 with h1 | ⟨rfl, h1⟩
      · rcases h2 with h2 | ⟨e, h2⟩
        · have := posLtB_trans h1 h2
          simp [posLtB_irrefl] at this
        · rw [e] at h1; simp [posLtB_irrefl] at h1
      · rcases h2 with h2 | ⟨e, h2⟩
        · simp [posLtB_irrefl] at h2
        · rw [ih h1 h2]

theorem entryLeB_iff {a b : Entry} :
    entryLeB a b = true ↔ a.1 < b.1 ∨ (a.1 = b.1 ∧ plistLeB a.2 b.2 = true) := by
  simp [entryLeB]

theorem entryLe_total (a b : Entry) : entryLe a b ∨ entryLe b a := by
  simp only [entryLe, entryLeB_iff]
  rcases Nat.lt_trichotomy a.1 b.1 with h | h | h
  · exact Or.inl (Or.inl h)
  · rcases plistLeB_total a.2 b.2 with h2 | h2
    · exact Or.inl (Or.inr ⟨h, h2⟩)
    · exact Or.inr (Or.inr ⟨h.symm, h2⟩)
  · exact Or.inr (Or.inl h)

theorem entryLe_trans {a b c : Entry} (h1 : entryLe a b) (h2 : entryLe b c) : entryLe a c := by
  simp only [entryLe, entryLeB_iff] at *
  rcases h1 with h1 | ⟨e1, h1⟩
  · rcases h2 with h2 | ⟨e2, h2⟩
    · exact Or.inl (Nat.lt_trans h1 h2)
    · exact Or.inl (e2 ▸ h1)
  · rcases h2 with h2 | ⟨e2, h2⟩
    · exact Or.inl (e1 ▸ h2)
    · exact Or.inr ⟨e1.trans e2, plistLeB_trans h1 h2⟩

theorem entryLe_antisymm {a b : Entry} (h1 : entryLe a b) (h2 : entryLe b a) : a = b := by
  simp only [entryLe, entryLeB_iff] at *
  rcases h1 with h1 | ⟨e1, h1⟩
  · rcases h2 with h2 | ⟨e2, h2⟩
    · omega
    · omega
  · rcases h2 with h2 | ⟨e2, h2⟩
    · omega
    · exact Prod.ext e1 (plistLeB_antisymm h1 h2)

instance : IsTotal Entry entryLe := ⟨entryLe_total⟩
instance : IsTrans Entry entryLe := ⟨fun _ _ _ => entryLe_trans⟩
instance : IsAntisymm Entry entryLe := ⟨fun _ _ => entryLe_antisymm⟩

/-! ### Canonical-sort lemmas -/

theorem sortPos_perm (l : List Pos) : List.Perm (sortPos l) l := List.perm_insertionSort posLe l

theorem sortPos_sorted (l : List Pos) : List.Sorted posLe (sortPos l) :=
  List.sorted_insertionSort posLe l

theorem sortPos_canon {l1 l2 : List Pos} (h : List.Perm l1 l2) : sortPos l1 = sortPos l2 :=
  List.eq_of_perm_of_sorted ((sortPos_perm l1).trans (h.trans (sortPos_perm l2).symm))
    (sortPos_sorted l1) (sortPos_sorted l2)

theorem sortPos_idem (l : List Pos) : sortPos (sortPos l) = sortPos l :=
  sortPos_canon (sortPos_perm l)

theorem mem_sortPos {l : List Pos} {p : Pos} : p ∈ sortPos l ↔ p ∈ l :=
  (sortPos_perm l).mem_iff

theorem sortPos_nodup {l : List Pos} (h : l.Nodup) : (sortPos l).Nodup :=
  (sortPos_perm l).symm.nodup h

theorem sortPos_length (l : List Pos) : (sortPos l).length = l.length :=
  (sortPos_perm l).length_eq

theorem sortEntries_perm (l : List Entry) : List.Perm (sortEntries l) l := List.perm_insertionSort entryLe l

theorem sortEntries_sorted (l : List Entry) : List.Sorted entryLe (sortEntries l) :=
  List.sorted_insertionSort entryLe l

theorem sortEntries_canon {l1 l2 : List Entry} (h : List.Perm l1 l2) : sortEntries l1 = sortEntries l2 :=
  List.eq_of_perm_of_sorted ((sortEntries_perm l1).trans (h.trans (sortEntries_perm l2).symm))
    (sortEntries_sorted l1) (sortEntries_sorted l2)

theorem mem_sortEntries {l : List Entry} {e : Entry} : e ∈ sortEntries l ↔ e ∈ l :=
  (sortEntries_perm l).mem_iff

/-! ### Set / dict helper lemmas -/

theorem mem_dedupSortPos {l : List Pos} {p : Pos} : p ∈ dedupSortPos l ↔ p ∈ l := by
  simp [dedupSortPos, mem_sortPos, List.mem_dedup]

theorem dedupSortPos_nodup (l : List Pos) : (dedupSortPos l).Nodup :=
  sortPos_nodup (List.nodup_dedup l)

theorem dedupSortPos_perm_self {l : List Pos} (h : l.Nodup) : List.Perm (dedupSortPos l) l :=
  (sortPos_perm l.dedup).trans (by rw [List.Nodup.dedup h])

theorem dedupSortPos_length_le (l : List Pos) : (dedupSortPos l).length ≤ l.length := by
  rw [dedupSortPos, sortPos_length]
  exact (List.dedup_sublist l).length_le

theorem setAdd_eq_append {s : List Pos} {p : Pos} (h : p ∉ s) : setAdd s p = s ++ [p] := by
  simp [setAdd, h]

theorem mem_canonSeen {m : List Entry} {e : Entry} :
    e ∈ canonSeen m ↔ ∃ e0 ∈ m, e = (e0.1, sortPos e0.2) := by
  simp only [canonSeen, mem_sortEntries, List.mem_map]
  constructor
  · rintro ⟨e0, h1, rfl⟩; exact ⟨e0, h1, rfl⟩
  · rintro ⟨e0, h1, rfl⟩; exact ⟨e0, h1, rfl⟩

theorem canonSeen_keys_perm (m : List Entry) :
    List.Perm ((canonSeen m).map Prod.fst) (m.map Prod.fst) := by
  have h1 : List.Perm ((canonSeen m).map Prod.fst)
      ((m.map (fun e => (e.1, sortPos e.2))).map Prod.fst) :=
    (sortEntries_perm _).map Prod.fst
  refine h1.trans ?_
  rw [List.map_map]
  exact (List.map_congr_left (fun e _ => rfl)).symm ▸ List.Perm.refl _

/-- Membership in a `dinsert` result. -/
theorem mem_dinsert {acc : List Entry} {x e : Entry} (h : e ∈ dinsert acc x) :
    e ∈ acc ∨ e = x := by
  unfold dinsert at h
  split at h
  · rcases List.mem_map.1 h with ⟨e2, h2, he⟩
    by_cases hc : (e2.1 == x.1) = true
    · simp [hc] at he; exact Or.inr he.symm
    · simp [hc] at he; exact Or.inl (he ▸ h2)
  · rcases List.mem_append.1 h with h2 | h2
    · exact Or.inl h2
    · exact Or.inr (List.mem_singleton.1 h2)

/-- Keys of a `dinsert` result. -/
theorem dinsert_keys (acc : List Entry) (x : Entry) :
    (dinsert acc x).map Prod.fst = acc.map Prod.fst ∨
    ((dinsert acc x).map Prod.fst = acc.map Prod.fst ++ [x.1] ∧ x.1 ∉ acc.map Prod.fst) := by
  unfold dinsert
  split
  case isTrue h =>
    left
    rw [List.map_map]
    apply List.map_congr_left
    intro e _
    by_cases hc : e.1 = x.1
    · simp [hc]
    · simp [hc]
  case isFalse h =>
    right
    constructor
    · simp
    · intro hmem
      rcases List.mem_map.1 hmem with ⟨e, he, hfst⟩
      exact h (List.any_eq_true.2 ⟨e, he, beq_iff_eq.2 hfst⟩)

theorem toDict_aux_mem : ∀ (l : List Entry) (acc : List Entry) (e : Entry),
    e ∈ l.foldl dinsert acc → e ∈ acc ∨ e ∈ l := by
  intro l
  induction l with
  | nil => intro acc e h; exact Or.inl h
  | cons x xs ih =>
    intro acc e h
    rcases ih (dinsert acc x) e h with h2 | h2
    · rcases mem_dinsert h2 with h3 | h3
      · exact Or.inl h3
      · exact Or.inr (h3 ▸ List.mem_cons_self x xs)
    · exact Or.inr (List.mem_cons_of_mem x h2)

theorem mem_toDict {l : List Entry} {e : Entry} (h : e ∈ toDict l) : e ∈ l := by
  rcases toDict_aux_mem l [] e h with h2 | h2
  · simp at h2
  · exact h2

theorem toDict_aux_keys : ∀ (l : List Entry) (acc : List Entry),
    (acc.map Prod.fst).Nodup → ((l.foldl dinsert acc).map Prod.fst).Nodup := by
  intro l
  induction l with
  | nil => intro acc h; exact h
  | cons x xs ih =>
    intro acc h
    apply ih
    rcases dinsert_keys acc x with h2 | ⟨h2, h3⟩
    · rw [h2]; exact h
    · rw [h2]
      refine h.append (List.nodup_singleton _) ?_
      intro a ha hb
      rw [List.mem_singleton] at hb
      exact h3 (hb ▸ ha)

theorem toDict_keys_nodup (l : List Entry) : ((toDict l).map Prod.fst).Nodup :=
  toDict_aux_keys l [] (by simp)

theorem toDict_aux_id : ∀ (l : List Entry) (acc : List Entry),
    ((acc ++ l).map Prod.fst).Nodup → l.foldl dinsert acc = acc ++ l := by
  intro l
  induction l with
  | nil => intro acc _; simp
  | cons x xs ih =>
    intro acc h
    have hx : x.1 ∉ acc.map Prod.fst := by
      intro hmem
      rw [List.map_append] at h
      have hd := List.disjoint_of_nodup_append h
      exact hd hmem (by simp)
    have hd : dinsert acc x = acc ++ [x] := by
      unfold dinsert
      rw [if_neg]
      intro hany
      rcases List.any_eq_true.1 hany with ⟨e, he, hb⟩
      exact hx (List.mem_map.2 ⟨e, he, beq_iff_eq.1 hb⟩)
    have := ih (acc ++ [x]) (by simpa using h)
    simp only [List.foldl_cons, hd, this, List.append_assoc, List.singleton_append]

theorem toDict_id {l : List Entry} (h : (l.map Prod.fst).Nodup) : toDict l = l :=
  toDict_aux_id l [] (by simpa using h)

/-- Membership in an `addPos` result: an old entry, the extended entry of
the given value, or a brand-new singleton entry. -/
theorem mem_addPos {m : List Entry} {v : Nat} {p : Pos} {e : Entry} (h : e ∈ addPos m v p) :
    e ∈ m ∨ (∃ l, (v, l) ∈ m ∧ e = (v, if p ∈ l then l else l ++ [p])) ∨ e = (v, [p]) := by
  unfold addPos at h
  split at h
  · rcases List.mem_map.1 h with ⟨e2, h2, he⟩
    by_cases hc : e2.1 = v
    · right; left
      refine ⟨e2.2, ?_, ?_⟩
      · rw [← hc]; exact h2
      · rw [← he]; simp [hc]
    · left
      simp only [hc, beq_iff_eq, if_false] at he
      exact he ▸ h2
  · rcases List.mem_append.1 h with h2 | h2
    · exact Or.inl h2
    · exact Or.inr (Or.inr (List.mem_singleton.1 h2))

/-- `addPos` leaves the key list unchanged or appends the new key. -/
theorem addPos_keys (m : List Entry) (v : Nat) (p : Pos) :
    (addPos m v p).map Prod.fst = m.map Prod.fst ∨
    ((addPos m v p).map Prod.fst = m.map Prod.fst ++ [v] ∧ v ∉ m.map Prod.fst) := by
  unfold addPos
  split
  case isTrue h =>
    left
    rw [List.map_map]
    apply List.map_congr_left
    intro e _
    by_cases hc : e.1 = v
    · simp [hc]
    · simp [hc]
  case isFalse h =>
    right
    constructor
    · simp
    · intro hmem
      rcases List.mem_map.1 hmem with ⟨e, he, hfst⟩
      exact h (List.any_eq_true.2 ⟨e, he, beq_iff_eq.2 hfst⟩)

theorem addPos_keys_nodup {m : List Entry} {v : Nat} {p : Pos}
    (h : (m.map Prod.fst).Nodup) : ((addPos m v p).map Prod.fst).Nodup := by
  rcases addPos_keys m v p with h2 | ⟨h2, h3⟩
  · rw [h2]; exact h
  · rw [h2]
    refine h.append (List.nodup_singleton _) ?_
    intro a ha hb
    rw [List.mem_singleton] at hb
    exact h3 (hb ▸ ha)

/-- Membership in a `gappend` result. -/
theorem mem_gappend {m : List Entry} {v : Nat} {p : Pos} {e : Entry} (h : e ∈ gappend m v p) :
    e ∈ m ∨ (∃ l, (v, l) ∈ m ∧ e = (v, l ++ [p])) ∨ e = (v, [p]) := by
  unfold gappend at h
  split at h
  · rcases List.mem_map.1 h with ⟨e2, h2, he⟩
    by_cases hc : e2.1 = v
    · right; left
      refine ⟨e2.2, ?_, ?_⟩
      · rw [← hc]; exact h2
      · rw [← he]; simp [hc]
    · left
      simp only [hc, beq_iff_eq, if_false] at he
      exact he ▸ h2
  · rcases List.mem_append.1 h with h2 | h2
    · exact Or.inl h2
    · exact Or.inr (Or.inr (List.mem_singleton.1 h2))

theorem gappend_keys (m : List Entry) (v : Nat) (p : Pos) :
    (gappend m v p).map Prod.fst = m.map Prod.fst ∨
    ((gappend m v p).map Prod.fst = m.map Prod.fst ++ [v] ∧ v ∉ m.map Prod.fst) := by
  unfold gappend
  split
  case isTrue h =>
    left
    rw [List.map_map]
    apply List.map_congr_left
    intro e _
    by_cases hc : e.1 = v
    · simp [hc]
    · simp [hc]
  case isFalse h =>
    right
    constructor
    · simp
    · intro hmem
      rcases List.mem_map.1 hmem with ⟨e, he, hfst⟩
      exact h (List.any_eq_true.2 ⟨e, he, beq_iff_eq.2 hfst⟩)

/-- Membership in the match-branch cleanup `delIfEmpty (removeFrom m v c d) v`. -/
theorem mem_cleanup {m : List Entry} {v : Nat} {c d : Pos} {e : Entry}
    (h : e ∈ delIfEmpty (removeFrom m v c d) v) :
    ∃ e0 ∈ m, (e0.1 ≠ v ∧ e = e0) ∨
      (e0.1 = v ∧ e = (e0.1, e0.2.filter (fun x => ¬ (x = c ∨ x = d))) ∧ e.2 ≠ []) := by
  unfold delIfEmpty at h
  rcases List.mem_filter.1 h with ⟨h1, h2⟩
  unfold removeFrom at h1
  rcases List.mem_map.1 h1 with ⟨e0, he0, he⟩
  refine ⟨e0, he0, ?_⟩
  by_cases hc : e0.1 = v
  · right
    rw [if_pos hc] at he
    refine ⟨hc, he.symm, ?_⟩
    intro hnil
    rw [decide_eq_true_eq] at h2
    exact h2 ⟨by rw [← he]; exact hc, hnil⟩
  · left
    rw [if_neg hc] at he
    exact ⟨hc, he.symm⟩

theorem cleanup_keys_sublist (m : List Entry) (v : Nat) (c d : Pos) :
    List.Sublist ((delIfEmpty (removeFrom m v c d) v).map Prod.fst) (m.map Prod.fst) := by
  have h1 : List.Sublist (delIfEmpty (removeFrom m v c d) v) (removeFrom m v c d) :=
    List.filter_sublist _
  have h2 := h1.map Prod.fst
  have h3 : (removeFrom m v c d).map Prod.fst = m.map Prod.fst := by
    unfold removeFrom
    rw [List.map_map]
    apply List.map_congr_left
    intro e _
    by_cases hc : e.1 = v
    · simp [hc]
    · simp [hc]
  rw [h3] at h2
  exact h2

/-! ### Well-formedness of search states -/

/-- The two spec invariants on a Search State: no position is both
matched and remembered, and every remembered value's position list is
non-empty and duplicate-free. -/
def WFState (s : SState) : Prop :=
  (∀ e ∈ s.2, ∀ p ∈ e.2, ¬ p ∈ s.1) ∧ (∀ e ∈ s.2, e.2 ≠ [] ∧ e.2.Nodup)

instance : DecidablePred WFState := fun s => by unfold WFState; infer_instance

/-- The remembered map tells the truth about the board: a position
listed under value `v` really holds value `v`. -/
def Faithful (g : Game) (s : SState) : Prop :=
  ∀ e ∈ s.2, ∀ p ∈ e.2, value_at g p = e.1

/-- A search state as actually produced by snapshotting a real game or
by the successor generator: the spec invariants, truthful memory,
distinct remembered values, and a duplicate-free matched list. -/
def GoodState (g : Game) (s : SState) : Prop :=
  WFState s ∧ Faithful g s ∧ (s.2.map Prod.fst).Nodup ∧ s.1.Nodup

instance (g : Game) : DecidablePred (GoodState g) := fun s => by
  unfold GoodState WFState Faithful; infer_instance

/-- Well-formedness of a working seen-map relative to a matched list. -/
def GoodMap (g : Game) (matched : List Pos) (m : List Entry) : Prop :=
  (∀ e ∈ m, ∀ p ∈ e.2, ¬ p ∈ matched) ∧ (∀ e ∈ m, e.2 ≠ [] ∧ e.2.Nodup) ∧
  (∀ e ∈ m, ∀ p ∈ e.2, value_at g p = e.1) ∧ (m.map Prod.fst).Nodup

theorem goodState_iff {g : Game} {s : SState} :
    GoodState g s ↔ GoodMap g s.1 s.2 ∧ s.1.Nodup := by
  unfold GoodState GoodMap WFState Faithful
  tauto

theorem addPos_good {g : Game} {matched : List Pos} {m : List Entry} {p : Pos}
    (hp : ¬ p ∈ matched) (hm : GoodMap g matched m) :
    GoodMap g matched (addPos m (value_at g p) p) := by
  obtain ⟨hdis, hne, hfa, hkeys⟩ := hm
  refine ⟨?_, ?_, ?_, addPos_keys_nodup hkeys⟩
  · intro e he q hq
    rcases mem_addPos he with h1 | ⟨l, hl, rfl⟩ | rfl
    · exact hdis e h1 q hq
    · simp only at hq
      split at hq
      · exact hdis _ hl q hq
      · rcases List.mem_append.1 hq with h2 | h2
        · exact hdis _ hl q h2
        · rw [List.mem_singleton.1 h2]; exact hp
    · rw [List.mem_singleton.1 hq]; exact hp
  · intro e he
    rcases mem_addPos he with h1 | ⟨l, hl, rfl⟩ | rfl
    · exact hne e h1
    · simp only
      split
      case isTrue h => exact hne _ hl
      case isFalse h =>
        refine ⟨by simp, ?_⟩
        rw [List.nodup_append]
        exact ⟨(hne _ hl).2, List.nodup_singleton _,
          fun a ha hb => h ((List.mem_singleton.1 hb) ▸ ha)⟩
    · exact ⟨by simp, List.nodup_singleton _⟩
  · intro e he q hq
    rcases mem_addPos he with h1 | ⟨l, hl, rfl⟩ | rfl
    · exact hfa e h1 q hq
    · simp only at hq ⊢
      split at hq
      · exact hfa _ hl q hq
      · rcases List.mem_append.1 hq with h2 | h2
        · exact hfa _ hl q h2
        · rw [List.mem_singleton.1 h2]
    · rw [List.mem_singleton.1 hq]

theorem value_at_congr {G g : Game} {p : Pos} (h : G.board = g.board) :
    value_at G p = value_at g p := by
  unfold value_at; rw [h]

theorem apply_turn_board (G : Game) (p1 p2 : Pos) :
    (apply_turn G p1 p2).1.board = G.board := by
  unfold apply_turn
  dsimp only
  split
  · rfl
  · rfl

theorem apply_turn_matched (G : Game) (p1 p2 : Pos) :
    (apply_turn G p1 p2).1.matched =
      if value_at G p1 = value_at G p2 ∧ p1 ≠ p2
      then setAdd (setAdd G.matched p1) p2 else G.matched := by
  unfold apply_turn
  dsimp only
  split
  case isTrue h => rfl
  case isFalse h => rfl

theorem turnResult_cost (g : Game) (matched : List Pos) (m : List Entry) (c d : Pos) :
    (turnResult g matched m c d).2.2 = 1 := by
  unfold turnResult
  dsimp only
  split
  · rfl
  · rfl

theorem turnResult_act (g : Game) (matched : List Pos) (m : List Entry) (c d : Pos) :
    (turnResult g matched m c d).1 = ("turn", (c, d)) := by
  unfold turnResult
  dsimp only
  split
  · rfl
  · rfl

/-- The successor state of a speculative turn, by branch. -/
theorem turnResult_state (g : Game) (matched : List Pos) (m : List Entry) (c d : Pos) :
    (turnResult g matched m c d).2.1 =
      if value_at g c = value_at g d ∧ c ≠ d then
        (dedupSortPos (matched ++ [c, d]),
         canonSeen (delIfEmpty (removeFrom (addPos (addPos m (value_at g c) c)
           (value_at g d) d) (value_at g c) c d) (value_at g c)))
      else
        (dedupSortPos matched,
         canonSeen (addPos (addPos m (value_at g c) c) (value_at g d) d)) := by
  unfold turnResult
  dsimp only
  split
  case isTrue h => rfl
  case isFalse h => rfl

/-- Inversion for phase-1 membership. -/
theorem matchActions_inv {matched : List Pos} {m : List Entry} {x : Act × SState × Nat}
    (h : x ∈ matchActions matched m) :
    ∃ e ∈ m, ∃ p1 p2 rest, 2 ≤ e.2.length ∧
      e.2.filter (fun p => ¬ p ∈ matched) = p1 :: p2 :: rest ∧
      x = (("match", (p1, p2)),
        (dedupSortPos (matched ++ [p1, p2]),
         canonSeen ((m.map (fun e2 => (e2.1, e2.2.filter (fun q => ¬ (q = p1 ∨ q = p2))))).filter
           (fun e2 => ¬ e2.2 = []))), 1) := by
  rcases List.mem_filterMap.1 h with ⟨e, he, hfe⟩
  refine ⟨e, he, ?_⟩
  split at hfe
  case isTrue hlen =>
    split at hfe
    case h_1 p1 p2 rest heq =>
      rw [Option.some_inj] at hfe
      exact ⟨p1, p2, rest, hlen, heq, hfe.symm⟩
    case h_2 => exact absurd hfe (by simp)
  case isFalse => exact absurd hfe (by simp)

/-- Inversion for successor membership (states with duplicate-free
remembered values, where the dict conversion is the identity). -/
theorem successors_inv {s : SState} {g : Game} {x : Act × SState × Nat}
    (hk : (s.2.map Prod.fst).Nodup) (h : x ∈ successors_state s g) :
    x ∈ matchActions s.1 s.2 ∨
    (matchActions s.1 s.2 = [] ∧
      ∃ c d, ¬ c ∈ s.1 ∧ ¬ d ∈ s.1 ∧ c ≠ d ∧ x = turnResult g s.1 s.2 c d) := by
  unfold successors_state at h
  rw [toDict_id hk] at h
  dsimp only at h
  split at h
  case isTrue hempty =>
    right
    refine ⟨List.isEmpty_iff.1 hempty, ?_⟩
    unfold explorationActions at h
    rcases List.mem_flatMap.1 h with ⟨c, hc, hx⟩
    have hcu : c ∈ (all_positions g).filter (fun p => ¬ p ∈ s.1) := by
      have h1 := List.mem_of_mem_take hc
      split at h1
      · exact h1
      · exact List.mem_of_mem_filter h1
    have hcm : ¬ c ∈ s.1 := by
      have := List.of_mem_filter hcu
      simpa using this
    rcases List.mem_append.1 hx with hx | hx
    · rcases List.mem_filterMap.1 hx with ⟨d, hd, hfd⟩
      have hdm : ¬ d ∈ s.1 := by
        rcases List.mem_flatMap.1 hd with ⟨e, _, hde⟩
        have := List.of_mem_filter hde
        simpa using this
      split at hfd
      case isTrue => exact absurd hfd (by simp)
      case isFalse hne =>
        rw [Option.some_inj] at hfd
        exact ⟨c, d, hcm, hdm, fun hcd => hne (hcd ▸ rfl), hfd.symm⟩
    · rcases List.mem_map.1 hx with ⟨d, hd, hfd⟩
      have hd2 := List.mem_of_mem_take (List.mem_of_mem_take hd)
      have hdm : ¬ d ∈ s.1 := by
        have := List.of_mem_filter (List.mem_of_mem_filter hd2)
        simpa using this
      have hdc : ¬ d = c := by
        have := List.of_mem_filter hd2
        simpa using this
      exact ⟨c, d, hcm, hdm, fun hcd => hdc (hcd ▸ rfl), hfd.symm⟩
  case isFalse => exact Or.inl h

theorem sortPos_ne_nil {l : List Pos} (h : l ≠ []) : sortPos l ≠ [] := by
  intro h2
  apply h
  have := sortPos_length l
  rw [h2] at this
  exact List.length_eq_zero.1 this.symm

theorem matchClean_keys_sublist (m : List Entry) (p1 p2 : Pos) :
    List.Sublist (((m.map (fun e2 => (e2.1, e2.2.filter (fun q => ¬ (q = p1 ∨ q = p2))))).filter
      (fun e2 => ¬ e2.2 = [])).map Prod.fst) (m.map Prod.fst) := by
  have h1 : List.Sublist
      ((m.map (fun e2 => (e2.1, e2.2.filter (fun q => ¬ (q = p1 ∨ q = p2))))).filter
        (fun e2 => ¬ e2.2 = []))
      (m.map (fun e2 => (e2.1, e2.2.filter (fun q => ¬ (q = p1 ∨ q = p2))))) :=
    List.filter_sublist _
  have h2 := h1.map Prod.fst
  have h3 : (m.map (fun e2 => (e2.1, e2.2.filter (fun q => ¬ (q = p1 ∨ q = p2))))).map Prod.fst
      = m.map Prod.fst := by
    rw [List.map_map]
    exact List.map_congr_left (fun e _ => rfl)
  rw [h3] at h2
  exact h2

/-- The exploratory-turn successor of a good state is good. -/
theorem turnResult_good {g : Game} {matched : List Pos} {m : List Entry} {c d : Pos}
    (hm : GoodMap g matched m) (hc : ¬ c ∈ matched) (hd : ¬ d ∈ matched) :
    GoodState g (turnResult g matched m c d).2.1 := by
  have hs2 : GoodMap g matched (addPos (addPos m (value_at g c) c) (value_at g d) d) :=
    addPos_good hd (addPos_good hc hm)
  rw [turnResult_state]
  split
  case isTrue h =>
    obtain ⟨hdis, hne, hfa, hkeys⟩ := hs2
    refine ⟨⟨?_, ?_⟩, ?_, ?_, dedupSortPos_nodup _⟩
    · intro e he p hp
      rcases mem_canonSeen.1 he with ⟨e0, he0, rfl⟩
      rw [mem_sortPos] at hp
      rcases mem_cleanup he0 with ⟨e1, he1, ⟨hnev, heq⟩ | ⟨hev, heq, _⟩⟩
      · rw [heq] at hp
        intro hmem
        rcases List.mem_append.1 (mem_dedupSortPos.1 hmem) with h2 | h2
        · exact hdis e1 he1 p hp h2
        · have hvp := hfa e1 he1 p hp
          rcases List.mem_pair.1 h2 with rfl | rfl
          · exact hnev (hvp ▸ rfl)
          · exact hnev (by rw [← hvp, h.1])
      · rw [heq] at hp
        rcases List.mem_filter.1 hp with ⟨hp1, hp2⟩
        rw [decide_eq_true_eq] at hp2
        intro hmem
        rcases List.mem_append.1 (mem_dedupSortPos.1 hmem) with h2 | h2
        · exact hdis e1 he1 p hp1 h2
        · exact hp2 (List.mem_pair.1 h2)
    · intro e he
      rcases mem_canonSeen.1 he with ⟨e0, he0, rfl⟩
      rcases mem_cleanup he0 with ⟨e1, he1, ⟨hnev, heq⟩ | ⟨hev, heq, hnil⟩⟩
      · rw [heq]
        exact ⟨sortPos_ne_nil (hne e1 he1).1, sortPos_nodup (hne e1 he1).2⟩
      · refine ⟨?_, ?_⟩
        · apply sortPos_ne_nil
          rw [heq] at hnil ⊢
          exact hnil
        · rw [heq]
          exact sortPos_nodup ((hne e1 he1).2.filter _)
    · intro e he p hp
      rcases mem_canonSeen.1 he with ⟨e0, he0, rfl⟩
      rw [mem_sortPos] at hp
      rcases mem_cleanup he0 with ⟨e1, he1, ⟨hnev, heq⟩ | ⟨hev, heq, _⟩⟩
      · rw [heq] at hp ⊢
        exact hfa e1 he1 p hp
      · rw [heq] at hp ⊢
        exact hfa e1 he1 p (List.mem_of_mem_filter hp)
    · exact (canonSeen_keys_perm _).symm.nodup ((cleanup_keys_sublist _ _ _ _).nodup hkeys)
  case isFalse h =>
    obtain ⟨hdis, hne, hfa, hkeys⟩ := hs2
    refine ⟨⟨?_, ?_⟩, ?_, ?_, dedupSortPos_nodup _⟩
    · intro e he p hp
      rcases mem_canonSeen.1 he with ⟨e0, he0, rfl⟩
      rw [mem_sortPos] at hp
      intro hmem
      exact hdis e0 he0 p hp (mem_dedupSortPos.1 hmem)
    · intro e he
      rcases mem_canonSeen.1 he with ⟨e0, he0, rfl⟩
      exact ⟨sortPos_ne_nil (hne e0 he0).1, sortPos_nodup (hne e0 he0).2⟩
    · intro e he p hp
      rcases mem_canonSeen.1 he with ⟨e0, he0, rfl⟩
      rw [mem_sortPos] at hp
      exact hfa e0 he0 p hp
    · exact (canonSeen_keys_perm _).symm.nodup hkeys

/-- The known-pair successor of a good state is good. -/
theorem matchState_good {g : Game} {matched : List Pos} {m : List Entry} {p1 p2 : Pos}
    (hm : GoodMap g matched m) :
    GoodState g
      (dedupSortPos (matched ++ [p1, p2]),
       canonSeen ((m.map (fun e2 => (e2.1, e2.2.filter (fun q => ¬ (q = p1 ∨ q = p2))))).filter
         (fun e2 => ¬ e2.2 = []))) := by
  obtain ⟨hdis, hne, hfa, hkeys⟩ := hm
  refine ⟨⟨?_, ?_⟩, ?_, ?_, dedupSortPos_nodup _⟩
  · intro e he p hp
    rcases mem_canonSeen.1 he with ⟨e0, he0, rfl⟩
    rw [mem_sortPos] at hp
    rcases List.mem_filter.1 he0 with ⟨he1, _⟩
    rcases List.mem_map.1 he1 with ⟨e1, he2, rfl⟩
    rcases List.mem_filter.1 hp with ⟨hp1, hp2⟩
    rw [decide_eq_true_eq] at hp2
    intro hmem
    rcases List.mem_append.1 (mem_dedupSortPos.1 hmem) with h2 | h2
    · exact hdis e1 he2 p hp1 h2
    · exact hp2 (List.mem_pair.1 h2)
  · intro e he
    rcases mem_canonSeen.1 he with ⟨e0, he0, rfl⟩
    rcases List.mem_filter.1 he0 with ⟨he1, hnil⟩
    rcases List.mem_map.1 he1 with ⟨e1, he2, rfl⟩
    rw [decide_eq_true_eq] at hnil
    exact ⟨sortPos_ne_nil hnil, sortPos_nodup ((hne e1 he2).2.filter _)⟩
  · intro e he p hp
    rcases mem_canonSeen.1 he with ⟨e0, he0, rfl⟩
    rw [mem_sortPos] at hp
    rcases List.mem_filter.1 he0 with ⟨he1, _⟩
    rcases List.mem_map.1 he1 with ⟨e1, he2, rfl⟩
    exact hfa e1 he2 p (List.mem_of_mem_filter hp)
  · exact (canonSeen_keys_perm _).symm.nodup ((matchClean_keys_sublist m p1 p2).nodup hkeys)

/-- Successor generation preserves goodness of the search state. -/
theorem succ_good {g : Game} {s : SState} (hs : GoodState g s) :
    ∀ x ∈ successors_state s g, GoodState g x.2.1 := by
  intro x hx
  have hgm : GoodMap g s.1 s.2 := (goodState_iff.1 hs).1
  rcases successors_inv hgm.2.2.2 hx with h | ⟨_, c, d, hc, hd, hcd, rfl⟩
  · rcases matchActions_inv h with ⟨e, he, p1, p2, rest, hlen, hfil, rfl⟩
    exact matchState_good hgm
  · exact turnResult_good hgm hc hd

/-! ### Replay soundness of generated transitions -/

theorem apply_turn_size (G : Game) (p1 p2 : Pos) : (apply_turn G p1 p2).1.size = G.size := by
  unfold apply_turn
  dsimp only
  split
  · rfl
  · rfl

theorem replay_board (p : List Act) (g : Game) : (replay g p).board = g.board := by
  induction p generalizing g with
  | nil => rfl
  | cons a p ih =>
    show (replay (apply_turn g a.2.1 a.2.2).1 p).board = g.board
    rw [ih, apply_turn_board]

theorem replay_size (p : List Act) (g : Game) : (replay g p).size = g.size := by
  induction p generalizing g with
  | nil => rfl
  | cons a p ih =>
    show (replay (apply_turn g a.2.1 a.2.2).1 p).size = g.size
    rw [ih, apply_turn_size]

theorem replay_append (g : Game) (p : List Act) (a : Act) :
    replay g (p ++ [a]) = (apply_turn (replay g p) a.2.1 a.2.2).1 := by
  unfold replay
  rw [List.foldl_append]
  rfl

/-- Applying a generated transition's two positions to any live game with
the same board and the same matched set (up to order) lands on the
successor state's matched set (up to order). -/
theorem step_matched {g : Game} {s : SState} {x : Act × SState × Nat}
    (hs : GoodState g s) (hx : x ∈ successors_state s g)
    {G : Game} (hb : G.board = g.board) (hp : List.Perm G.matched s.1) :
    List.Perm (apply_turn G x.1.2.1 x.1.2.2).1.matched x.2.1.1 := by
  have hmn : s.1.Nodup := (goodState_iff.1 hs).2
  have hstep : ∀ c d : Pos, ¬ c ∈ s.1 → ¬ d ∈ s.1 → c ≠ d →
      List.Perm (setAdd (setAdd G.matched c) d) (dedupSortPos (s.1 ++ [c, d])) := by
    intro c d hc hd hcd
    have hcG : c ∉ G.matched := fun h => hc (hp.mem_iff.1 h)
    have hdG : d ∉ setAdd G.matched c := by
      rw [setAdd_eq_append hcG]
      intro h
      rcases List.mem_append.1 h with h2 | h2
      · exact hd (hp.mem_iff.1 h2)
      · exact hcd (List.mem_singleton.1 h2).symm
    rw [setAdd_eq_append hdG, setAdd_eq_append hcG, List.append_assoc]
    have hnd : (s.1 ++ [c, d]).Nodup := by
      rw [List.nodup_append]
      refine ⟨hmn, ?_, ?_⟩
      · simp [hcd]
      · intro q hq hq2
        rcases List.mem_pair.1 hq2 with rfl | rfl
        · exact hc hq
        · exact hd hq
    have h1 : List.Perm (G.matched ++ ([c] ++ [d])) (s.1 ++ ([c] ++ [d])) :=
      hp.append_right _
    exact h1.trans (dedupSortPos_perm_self hnd).symm
  rcases successors_inv hs.2.2.1 hx with h | ⟨_, c, d, hc, hd, hcd, rfl⟩
  · rcases matchActions_inv h with ⟨e, he, p1, p2, rest, hlen, hfil, rfl⟩
    have hp1f : p1 ∈ e.2.filter (fun p => ¬ p ∈ s.1) := by
      rw [hfil]; exact List.mem_cons_self _ _
    have hp2f : p2 ∈ e.2.filter (fun p => ¬ p ∈ s.1) := by
      rw [hfil]; exact List.mem_cons_of_mem _ (List.mem_cons_self _ _)
    have hp1 : ¬ p1 ∈ s.1 := by
      have := List.of_mem_filter hp1f; simpa using this
    have hp2 : ¬ p2 ∈ s.1 := by
      have := List.of_mem_filter hp2f; simpa using this
    have hne : p1 ≠ p2 := by
      have hnd : (e.2.filter (fun p => ¬ p ∈ s.1)).Nodup := (hs.1.2 e he).2.filter _
      rw [hfil] at hnd
      exact (List.nodup_cons.1 hnd).1 ∘ fun h => h ▸ List.mem_cons_self _ _
    have hv1 : value_at g p1 = e.1 := hs.2.1 e he p1 (List.mem_of_mem_filter hp1f)
    have hv2 : value_at g p2 = e.1 := hs.2.1 e he p2 (List.mem_of_mem_filter hp2f)
    rw [apply_turn_matched]
    rw [if_pos ⟨by rw [value_at_congr hb, value_at_congr hb, hv1, hv2], hne⟩]
    exact hstep p1 p2 hp1 hp2 hne
  · rw [turnResult_act, turnResult_state]
    rw [apply_turn_matched, value_at_congr hb, value_at_congr hb]
    by_cases h2 : value_at g c = value_at g d ∧ c ≠ d
    · rw [if_pos h2, if_pos h2]
      exact hstep c d hc hd h2.2
    · rw [if_neg h2, if_neg h2]
      exact hp.trans (dedupSortPos_perm_self hmn).symm

/-! ### Path reconstruction soundness -/

/-- A recorded `came_from` link corresponds to a real generated
transition between states with those matched sets. -/
def Edge (g : Game) (pk : SState) (a : Act) (k : SState) : Prop :=
  ∃ s s' n, (a, s', n) ∈ successors_state s g ∧ GoodState g s ∧
    List.Perm pk.1 s.1 ∧ List.Perm k.1 s'.1

/-- Every `came_from` entry is either the root (the planning game's own
matched set) or a recorded edge. -/
def LinkOK (g : Game) (cf : List (SState × (Option SState × Option Act))) : Prop :=
  ∀ e ∈ cf, (e.2.1 = none ∧ List.Perm g.matched e.1.1) ∨
    (∃ pk a, e.2 = (some pk, some a) ∧ Edge g pk a e.1)

theorem lookupCF_mem {cf : List (SState × (Option SState × Option Act))} {k : SState}
    {v : Option SState × Option Act} (h : lookupCF cf k = some v) : (k, v) ∈ cf := by
  unfold lookupCF at h
  cases hf : cf.find? (fun e => e.1 = k) with
  | none => rw [hf] at h; simp at h
  | some e =>
    rw [hf] at h
    simp only [Option.map_some'] at h
    have h1 := List.find?_some hf
    have h2 := List.mem_of_find?_eq_some hf
    rw [decide_eq_true_eq] at h1
    rw [Option.some_inj] at h
    have : (k, v) = e := by
      rw [← h1, ← h]
    rw [this]
    exact h2

theorem chain_sound {g : Game} {cf : List (SState × (Option SState × Option Act))}
    (hcf : LinkOK g cf) :
    ∀ (fuel : Nat) (k : SState) (path : List Act),
      reconstructPath cf fuel k = some path →
      List.Perm (replay g path).matched k.1 := by
  intro fuel
  induction fuel with
  | zero => intro k path h; simp [reconstructPath] at h
  | succ n ih =>
    intro k path h
    unfold reconstructPath at h
    cases hlk : lookupCF cf k with
    | none => rw [hlk] at h; simp at h
    | some v =>
      rw [hlk] at h
      have hmem := lookupCF_mem hlk
      obtain ⟨pko, ao⟩ := v
      cases pko with
      | none =>
        dsimp only at h
        rw [Option.some_inj] at h
        rcases hcf _ hmem with ⟨_, hperm⟩ | ⟨pk, a, heq, _⟩
        · rw [← h]
          exact hperm
        · exact absurd heq (by simp)
      | some pk =>
        cases ao with
        | none => simp at h
        | some a =>
          dsimp only at h
          cases hrec : reconstructPath cf n pk with
          | none => rw [hrec] at h; simp at h
          | some pp =>
            rw [hrec] at h
            simp only [Option.map_some'] at h
            rw [Option.some_inj] at h
            rcases hcf _ hmem with ⟨hnone, _⟩ | ⟨pk', a', heq, hedge⟩
            · exact absurd hnone (by simp)
            · have hpk : pk' = pk := by
                have := congrArg Prod.fst heq
                simpa using this.symm
              have ha : a' = a := by
                have := congrArg Prod.snd heq
                simpa using this.symm
              obtain ⟨s, s', n', hsucc, hgood, hperm1, hperm2⟩ := hedge
              rw [hpk] at hperm1
              rw [ha] at hsucc
              have hih := ih pk pp hrec
              have hstep := step_matched hgood hsucc (replay_board pp g) (hih.trans hperm1)
              rw [← h, replay_append]
              exact hstep.trans hperm2.symm

/-! ### Frontier and loop invariants -/

theorem popMin_mem {fr : List (Nat × Node)} {x : Nat × Node} {rest : List (Nat × Node)}
    (h : popMin fr = some (x, rest)) : x ∈ fr ∧ ∀ y ∈ rest, y ∈ fr := by
  induction fr generalizing x rest with
  | nil => simp [popMin] at h
  | cons a xs ih =>
    unfold popMin at h
    cases hm : popMin xs with
    | none =>
      rw [hm] at h
      dsimp only at h
      rw [Option.some_inj, Prod.mk.injEq] at h
      rcases h with ⟨rfl, rfl⟩
      exact ⟨List.mem_cons_self _ _, by simp⟩
    | some m' =>
      rw [hm] at h
      obtain ⟨mm, rest'⟩ := m'
      dsimp only at h
      split at h
      · rw [Option.some_inj, Prod.mk.injEq] at h
        rcases h with ⟨rfl, rfl⟩
        have := ih hm
        refine ⟨List.mem_cons_of_mem _ this.1, ?_⟩
        intro y hy
        rcases List.mem_cons.1 hy with rfl | hy2
        · exact List.mem_cons_self _ _
        · exact List.mem_cons_of_mem _ (this.2 y hy2)
      · rw [Option.some_inj, Prod.mk.injEq] at h
        rcases h with ⟨rfl, rfl⟩
        exact ⟨List.mem_cons_self _ _, fun y hy => List.mem_cons_of_mem _ hy⟩

theorem mem_dictSet {β : Type} {m : List (SState × β)} {k : SState} {v : β} {e : SState × β}
    (h : e ∈ dictSet m k v) : e ∈ m ∨ e = (k, v) := by
  unfold dictSet at h
  split at h
  · rcases List.mem_map.1 h with ⟨e2, h2, he⟩
    by_cases hc : e2.1 = k
    · right
      rw [← he]
      simp [hc]
    · left
      simp only [hc, beq_iff_eq, if_false] at he
      exact he ▸ h2
  · rcases List.mem_append.1 h with h2 | h2
    · exact Or.inl h2
    · exact Or.inr (List.mem_singleton.1 h2)

/-- Every frontier node's state is good. -/
def FrOK (g : Game) (fr : List (Nat × Node)) : Prop := ∀ e ∈ fr, GoodState g e.2.state

theorem expand_pres (g : Game) (pk : SState) (pg : Nat) :
    ∀ (succs : List (Act × SState × Nat)) (fr : List (Nat × Node))
      (cf : List (SState × (Option SState × Option Act))) (gs : List (SState × Nat)) (ctr : Nat),
      FrOK g fr → LinkOK g cf →
      (∀ x ∈ succs, GoodState g x.2.1 ∧ Edge g pk x.1 (state_to_key x.2.1)) →
      FrOK g (succs.foldl (expandStep g pk pg) (fr, cf, gs, ctr)).1 ∧
      LinkOK g (succs.foldl (expandStep g pk pg) (fr, cf, gs, ctr)).2.1 := by
  intro succs
  induction succs with
  | nil => intro fr cf gs ctr h1 h2 _; exact ⟨h1, h2⟩
  | cons x xs ih =>
    intro fr cf gs ctr h1 h2 h3
    rw [List.foldl_cons]
    have hx := h3 x (List.mem_cons_self _ _)
    have hstep : FrOK g (expandStep g pk pg (fr, cf, gs, ctr) x).1 ∧
        LinkOK g (expandStep g pk pg (fr, cf, gs, ctr) x).2.1 := by
      unfold expandStep
      dsimp only
      split
      · constructor
        · intro e he
          rcases List.mem_append.1 he with h4 | h4
          · exact h1 e h4
          · rw [List.mem_singleton.1 h4]
            exact hx.1
        · intro e he
          rcases mem_dictSet he with h4 | h4
          · exact h2 e h4
          · right
            refine ⟨pk, x.1, ?_, ?_⟩
            · rw [h4]
            · rw [h4]
              exact hx.2
      · exact ⟨h1, h2⟩
    have := ih (expandStep g pk pg (fr, cf, gs, ctr) x).1
      (expandStep g pk pg (fr, cf, gs, ctr) x).2.1
      (expandStep g pk pg (fr, cf, gs, ctr) x).2.2.1
      (expandStep g pk pg (fr, cf, gs, ctr) x).2.2.2
      hstep.1 hstep.2 (fun y hy => h3 y (List.mem_cons_of_mem _ hy))
    exact this

/-- Soundness of the A* main loop: a returned plan replays to a
finished game. -/
theorem astarLoop_sound (g : Game) :
    ∀ (budget : Nat) (fr : List (Nat × Node))
      (cf : List (SState × (Option SState × Option Act))) (gs : List (SState × Nat))
      (ctr : Nat) (tr : List (Int × Nat)) (path : List Act),
      FrOK g fr → LinkOK g cf →
      (astarLoop g budget fr cf gs ctr tr).2 = some path →
      is_finished (replay g path) = true := by
  intro budget
  induction budget with
  | zero =>
    intro fr cf gs ctr tr path h1 h2 h3
    unfold astarLoop at h3
    cases hpop : popMin fr with
    | none => rw [hpop] at h3; simp at h3
    | some pr =>
      obtain ⟨⟨idx, node⟩, rest⟩ := pr
      rw [hpop] at h3
      dsimp only at h3
      split at h3
      case isTrue hgoal =>
        have hperm := chain_sound h2 cf.length (state_to_key node.state) path h3
        have hlen : (replay g path).matched.length = node.state.1.length := by
          rw [hperm.length_eq]
          exact sortPos_length _
        unfold is_finished
        rw [beq_iff_eq]
        have htp : (replay g path).total_pairs = g.total_pairs := by
          unfold Game.total_pairs
          rw [replay_size]
        rw [hlen, htp, hgoal]
      case isFalse => simp at h3
  | succ b ih =>
    intro fr cf gs ctr tr path h1 h2 h3
    unfold astarLoop at h3
    cases hpop : popMin fr with
    | none => rw [hpop] at h3; simp at h3
    | some pr =>
      obtain ⟨⟨idx, node⟩, rest⟩ := pr
      rw [hpop] at h3
      dsimp only at h3
      split at h3
      case isTrue hgoal =>
        have hperm := chain_sound h2 cf.length (state_to_key node.state) path h3
        have hlen : (replay g path).matched.length = node.state.1.length := by
          rw [hperm.length_eq]
          exact sortPos_length _
        unfold is_finished
        rw [beq_iff_eq]
        have htp : (replay g path).total_pairs = g.total_pairs := by
          unfold Game.total_pairs
          rw [replay_size]
        rw [hlen, htp, hgoal]
      case isFalse =>
        have hnode : GoodState g node.state := h1 _ (popMin_mem hpop).1
        have hrest : FrOK g rest := fun e he => h1 e ((popMin_mem hpop).2 e he)
        have hsuccs : ∀ x ∈ successors_state node.state g,
            GoodState g x.2.1 ∧ Edge g (state_to_key node.state) x.1 (state_to_key x.2.1) := by
          intro x hxm
          refine ⟨succ_good hnode x hxm, node.state, x.2.1, x.2.2, hxm, hnode, ?_, ?_⟩
          · exact sortPos_perm _
          · exact sortPos_perm _
        have hpres := expand_pres g (state_to_key node.state) node.g
          (successors_state node.state g) rest cf gs ctr hrest h2 hsuccs
        exact ih _ _ _ _ _ path hpres.1 hpres.2 h3

/-! ### Snapshot well-formedness -/

/-- Consistency of a live game: the matched set and the seen-memory keys
are duplicate-free, and the memory records true board values. -/
def WFGame (g : Game) : Prop :=
  g.matched.Nodup ∧ (g.seen.map Prod.fst).Nodup ∧ ∀ pv ∈ g.seen, value_at g pv.1 = pv.2

instance : DecidablePred WFGame := fun g => by unfold WFGame; infer_instance

theorem seen_fold_good (g : Game) :
    ∀ (todo : List (Pos × Nat)) (acc : List Entry),
      (todo.map Prod.fst).Nodup →
      (∀ pv ∈ todo, pv ∈ g.seen) →
      (∀ e ∈ acc, ∀ p ∈ e.2, ¬ p ∈ todo.map Prod.fst) →
      (∀ e ∈ acc, e.2 ≠ [] ∧ e.2.Nodup) →
      (acc.map Prod.fst).Nodup →
      (∀ e ∈ acc, ∀ p ∈ e.2, (p, e.1) ∈ g.seen ∧ ¬ p ∈ g.matched) →
      (∀ e ∈ todo.foldl
          (fun acc pv => if pv.1 ∈ g.matched then acc else gappend acc pv.2 pv.1) acc,
        (e.2 ≠ [] ∧ e.2.Nodup) ∧
        (∀ p ∈ e.2, (p, e.1) ∈ g.seen ∧ ¬ p ∈ g.matched)) ∧
      (((todo.foldl
          (fun acc pv => if pv.1 ∈ g.matched then acc else gappend acc pv.2 pv.1) acc)).map
          Prod.fst).Nodup := by
  intro todo
  induction todo with
  | nil =>
    intro acc _ _ _ h4 h5 h6
    exact ⟨fun e he => ⟨h4 e he, h6 e he⟩, h5⟩
  | cons pv todo ih =>
    intro acc h1 h2 h3 h4 h5 h6
    rw [List.foldl_cons]
    have h1' : (todo.map Prod.fst).Nodup := by
      rw [List.map_cons] at h1
      exact (List.nodup_cons.1 h1).2
    have hfresh : pv.1 ∉ todo.map Prod.fst := by
      rw [List.map_cons] at h1
      exact (List.nodup_cons.1 h1).1
    have h2' : ∀ qv ∈ todo, qv ∈ g.seen := fun qv hq => h2 qv (List.mem_cons_of_mem _ hq)
    by_cases hmat : pv.1 ∈ g.matched
    · rw [if_pos hmat]
      refine ih acc h1' h2' ?_ h4 h5 h6
      intro e he p hp hmem
      exact h3 e he p hp (by rw [List.map_cons]; exact List.mem_cons_of_mem _ hmem)
    · rw [if_neg hmat]
      have hacc3 : ∀ e ∈ acc, ∀ p ∈ e.2, p ≠ pv.1 := by
        intro e he p hp hpeq
        exact h3 e he p hp (by rw [List.map_cons, hpeq]; exact List.mem_cons_self _ _)
      refine ih (gappend acc pv.2 pv.1) h1' h2' ?_ ?_ ?_ ?_
      · intro e he p hp hmem
        rcases mem_gappend he with he2 | ⟨l, hl, rfl⟩ | rfl
        · exact h3 e he2 p hp (by rw [List.map_cons]; exact List.mem_cons_of_mem _ hmem)
        · rcases List.mem_append.1 hp with hp2 | hp2
          · exact h3 _ hl p hp2 (by rw [List.map_cons]; exact List.mem_cons_of_mem _ hmem)
          · rw [List.mem_singleton.1 hp2] at hmem
            exact hfresh hmem
        · rw [List.mem_singleton.1 hp] at hmem
          exact hfresh hmem
      · intro e he
        rcases mem_gappend he with he2 | ⟨l, hl, rfl⟩ | rfl
        · exact h4 e he2
        · refine ⟨by simp, ?_⟩
          rw [List.nodup_append]
          exact ⟨(h4 _ hl).2, List.nodup_singleton _,
            fun q hq hq2 => hacc3 _ hl q hq (List.mem_singleton.1 hq2)⟩
        · exact ⟨by simp, List.nodup_singleton _⟩
      · rcases gappend_keys acc pv.2 pv.1 with hk | ⟨hk, hk2⟩
        · rw [hk]; exact h5
        · rw [hk]
          refine h5.append (List.nodup_singleton _) ?_
          intro a ha hb
          exact hk2 ((List.mem_singleton.1 hb) ▸ ha)
      · intro e he p hp
        rcases mem_gappend he with he2 | ⟨l, hl, rfl⟩ | rfl
        · exact h6 e he2 p hp
        · rcases List.mem_append.1 hp with hp2 | hp2
          · exact h6 _ hl p hp2
          · rw [List.mem_singleton.1 hp2]
            exact ⟨h2 pv (List.mem_cons_self _ _), hmat⟩
        · rw [List.mem_singleton.1 hp]
          exact ⟨h2 pv (List.mem_cons_self _ _), hmat⟩

theorem seen_pairs_spec (g : Game) (hk : (g.seen.map Prod.fst).Nodup) :
    (∀ e ∈ seen_pairs g, (e.2 ≠ [] ∧ e.2.Nodup) ∧
      (∀ p ∈ e.2, (p, e.1) ∈ g.seen ∧ ¬ p ∈ g.matched)) ∧
    ((seen_pairs g).map Prod.fst).Nodup := by
  unfold seen_pairs
  exact seen_fold_good g g.seen [] hk (fun pv h => h) (by simp) (by simp) (by simp) (by simp)

theorem snapshot_eq (g : Game) : snapshot g = (sortPos g.matched, canonSeen (seen_pairs g)) := rfl

/-- The snapshot of a consistent live game is a good search state. -/
theorem snapshot_good {g : Game} (hwf : WFGame g) : GoodState g (snapshot g) := by
  obtain ⟨hmn, hkn, hval⟩ := hwf
  have hsp := seen_pairs_spec g hkn
  rw [snapshot_eq]
  refine ⟨⟨?_, ?_⟩, ?_, ?_, sortPos_nodup hmn⟩
  · intro e he p hp hmem
    rcases mem_canonSeen.1 he with ⟨e0, he0, rfl⟩
    rw [mem_sortPos] at hp
    exact ((hsp.1 e0 he0).2 p hp).2 (mem_sortPos.1 hmem)
  · intro e he
    rcases mem_canonSeen.1 he with ⟨e0, he0, rfl⟩
    exact ⟨sortPos_ne_nil (hsp.1 e0 he0).1.1, sortPos_nodup (hsp.1 e0 he0).1.2⟩
  · intro e he p hp
    rcases mem_canonSeen.1 he with ⟨e0, he0, rfl⟩
    rw [mem_sortPos] at hp
    exact hval _ ((hsp.1 e0 he0).2 p hp).1
  · exact (canonSeen_keys_perm _).symm.nodup hsp.2

/-- **C1.** For every consistent live game, if `astar_plan` (run from the
snapshot of that game) returns a plan, then replaying that plan's action
sequence in order with `apply_turn` finishes the game. -/
theorem C1_plan_validity (g : Game) (maxExp : Nat) (plan : List Act)
    (hwf : WFGame g) (h : astar_plan (snapshot g) g maxExp = some plan) :
    is_finished (replay g plan) = true := by
  have hgood : GoodState g (snapshot g) := snapshot_good hwf
  have hfr : FrOK g [(0, ⟨heuristic_state (snapshot g) g.total_pairs, 0, snapshot g,
      none, none⟩)] := by
    intro e he
    rw [List.mem_singleton.1 he]
    exact hgood
  have hcf : LinkOK g [(state_to_key (snapshot g), (none, none))] := by
    intro e he
    rw [List.mem_singleton.1 he]
    left
    refine ⟨rfl, ?_⟩
    have h1 : (state_to_key (snapshot g)).1 = sortPos (sortPos g.matched) := rfl
    rw [h1]
    exact ((sortPos_perm _).trans (sortPos_perm _)).symm
  exact astarLoop_sound g maxExp _ _ _ _ _ plan hfr hcf h

/-- Witness: on the concrete 2×2 board `[[1,2],[2,1]]` the planner finds
the two-turn plan, and replaying it finishes the game. -/
theorem C1_plan_validity_witness :
    is_finished (replay ⟨2, [[1, 2], [2, 1]], [], 0, []⟩
      [("turn", ((0, 0), (1, 1))), ("turn", ((0, 1), (1, 0)))]) = true :=
  C1_plan_validity ⟨2, [[1, 2], [2, 1]], [], 0, []⟩ 10
    [("turn", ((0, 0), (1, 1))), ("turn", ((0, 1), (1, 0)))]
    (by decide) (by decide)

/-! ### C10: goal test precedes the budget check -/

/-- **C10.** If the initial search state already has all pairs matched,
`astar_plan` returns the empty plan for every budget, including 0: the
popped node passes the goal test before the expansion budget is
examined. -/
theorem C10_goal_precedes_budget (g : Game) (s : SState) (maxExp : Nat)
    (h : s.1.length / 2 = g.total_pairs) :
    astar_plan s g maxExp = some [] := by
  have hl : lookupCF [(state_to_key s, (none, none))] (state_to_key s) =
      some (none, none) := by
    unfold lookupCF
    rw [List.find?_cons_of_pos _ (by simp)]
    rfl
  have hr : reconstructPath [(state_to_key s, (none, none))] 1 (state_to_key s) =
      some [] := by
    unfold reconstructPath
    rw [hl]
  unfold astar_plan astar_core astarLoop
  dsimp only
  rw [show popMin [(0, (⟨heuristic_state s g.total_pairs, 0, s, none, none⟩ : Node))] =
      some ((0, ⟨heuristic_state s g.total_pairs, 0, s, none, none⟩), []) from rfl]
  dsimp only
  rw [if_pos h]
  exact hr

/-- Witness for C10 at a finished 2×2 game state and budget 0. -/
theorem C10_goal_precedes_budget_witness :
    astar_plan (([(0, 0), (0, 1), (1, 0), (1, 1)] : List Pos), ([] : List Entry))
      ⟨2, [[1, 2], [1, 2]], [(0, 0), (0, 1), (1, 0), (1, 1)], 2, []⟩ 0 = some [] :=
  C10_goal_precedes_budget _ _ 0 (by decide)

/-! ### C4: failure is a structured result -/

/-- **C4.** `astar_plan` reports failure as `none`: with a zero expansion
budget any initial state that is not already at the goal yields `none`
(the single pop fails the goal test and exhausts the budget), and an
empty frontier always yields `none`. -/
theorem C4_budget_exhaustion :
    (∀ (g : Game) (s : SState), s.1.length / 2 < g.total_pairs →
      astar_plan s g 0 = none) ∧
    (∀ (g : Game) (budget : Nat) (cf : List (SState × (Option SState × Option Act)))
      (gs : List (SState × Nat)) (ctr : Nat) (tr : List (Int × Nat)),
      (astarLoop g budget [] cf gs ctr tr).2 = none) := by
  constructor
  · intro g s h
    unfold astar_plan astar_core astarLoop
    dsimp only
    rw [show popMin [(0, (⟨heuristic_state s g.total_pairs, 0, s, none, none⟩ : Node))] =
        some ((0, ⟨heuristic_state s g.total_pairs, 0, s, none, none⟩), []) from rfl]
    dsimp only
    rw [if_neg (Nat.ne_of_lt h)]
  · intro g budget cf gs ctr tr
    unfold astarLoop
    rfl

/-- Witness for C4: a fresh 2×2 game with no matches and budget 0. -/
theorem C4_budget_exhaustion_witness :
    astar_plan (snapshot ⟨2, [[1, 2], [1, 2]], [], 0, []⟩)
      ⟨2, [[1, 2], [1, 2]], [], 0, []⟩ 0 = none ∧
    (astarLoop ⟨2, [[1, 2], [1, 2]], [], 0, []⟩ 5 [] [] [] 1 []).2 = none :=
  ⟨C4_budget_exhaustion.1 _ _ (by decide), C4_budget_exhaustion.2 _ 5 [] [] 1 []⟩

/-! ### C3: heuristic and admissibility -/

/-- Every successor's matched tuple is the deduplicated sort of the
parent's matched tuple, possibly extended by the two flipped positions. -/
theorem successors_shape {s : SState} {g : Game} {x : Act × SState × Nat}
    (h : x ∈ successors_state s g) :
    (∃ p1 p2, x.2.1.1 = dedupSortPos (s.1 ++ [p1, p2])) ∨ x.2.1.1 = dedupSortPos s.1 := by
  unfold successors_state at h
  dsimp only at h
  split at h
  · rcases List.mem_flatMap.1 h with ⟨c, _, hx⟩
    have hturn : ∃ d, x = turnResult g s.1 (toDict s.2) c d := by
      rcases List.mem_append.1 hx with hx2 | hx2
      · rcases List.mem_filterMap.1 hx2 with ⟨d, _, hfd⟩
        split at hfd
        · exact absurd hfd (by simp)
        · rw [Option.some_inj] at hfd
          exact ⟨d, hfd.symm⟩
      · rcases List.mem_map.1 hx2 with ⟨d, _, hfd⟩
        exact ⟨d, hfd.symm⟩
    obtain ⟨d, rfl⟩ := hturn
    rw [turnResult_state]
    split
    · exact Or.inl ⟨c, d, rfl⟩
    · exact Or.inr rfl
  · rcases matchActions_inv h with ⟨e, _, p1, p2, rest, _, _, rfl⟩
    exact Or.inl ⟨p1, p2, rfl⟩

/-- One generated transition adds at most one matched pair. -/
theorem succ_matched_growth {s : SState} {g : Game} {x : Act × SState × Nat}
    (h : x ∈ successors_state s g) :
    x.2.1.1.length / 2 ≤ s.1.length / 2 + 1 := by
  rcases successors_shape h with ⟨p1, p2, heq⟩ | heq
  · rw [heq]
    have h1 : (dedupSortPos (s.1 ++ [p1, p2])).length ≤ s.1.length + 2 := by
      have := dedupSortPos_length_le (s.1 ++ [p1, p2])
      simpa using this
    calc (dedupSortPos (s.1 ++ [p1, p2])).length / 2 ≤ (s.1.length + 2) / 2 :=
          Nat.div_le_div_right h1
      _ = s.1.length / 2 + 1 := Nat.add_div_right _ (by omega)
  · rw [heq]
    have h1 : (dedupSortPos s.1).length ≤ s.1.length := dedupSortPos_length_le s.1
    exact le_trans (Nat.div_le_div_right h1) (by omega)

/-- Paths of generated successor transitions. -/
inductive Reach (g : Game) : SState → SState → Nat → Prop
  | refl (s : SState) : Reach g s s 0
  | step {s s' t : SState} {a : Act} {c n : Nat} :
      (a, s', c) ∈ successors_state s g → Reach g s' t n → Reach g s t (n + 1)

theorem reach_matched_growth {g : Game} {s t : SState} {n : Nat} (h : Reach g s t n) :
    t.1.length / 2 ≤ s.1.length / 2 + n := by
  induction h with
  | refl s => omega
  | step hstep _ ih =>
    have h2 := succ_matched_growth hstep
    dsimp only at h2
    omega

/-- **C3.** The heuristic is exactly `total_pairs` minus the matched-pair
count, and it is admissible: along any path of generated successor
transitions from `s` to a goal state, the number of transitions is at
least `h(s)` (each transition adds at most one matched pair). -/
theorem C3_heuristic_admissible :
    (∀ (s : SState) (tp : Nat),
      heuristic_state s tp = (tp : Int) - ((s.1.length / 2 : Nat) : Int)) ∧
    (∀ (g : Game) (s t : SState) (n : Nat), Reach g s t n →
      t.1.length / 2 = g.total_pairs →
      heuristic_state s g.total_pairs ≤ (n : Int)) := by
  constructor
  · intro s tp
    rfl
  · intro g s t n hreach hgoal
    have h1 := reach_matched_growth hreach
    unfold heuristic_state
    omega

/-- Witness for C3: a two-step successor path on the 2×2 board
`[[1,2],[2,1]]` from the empty state to the all-matched state, whose
length 2 is at least the heuristic value 2 of the start state. -/
theorem C3_heuristic_admissible_witness :
    heuristic_state (([], []) : SState) (Game.total_pairs ⟨2, [[1, 2], [2, 1]], [], 0, []⟩)
      ≤ ((2 : Nat) : Int) :=
  C3_heuristic_admissible.2 ⟨2, [[1, 2], [2, 1]], [], 0, []⟩ ([], [])
    ([(0, 0), (0, 1), (1, 0), (1, 1)], []) 2
    (@Reach.step ⟨2, [[1, 2], [2, 1]], [], 0, []⟩ ([], []) ([(0, 0), (1, 1)], [])
      ([(0, 0), (0, 1), (1, 0), (1, 1)], []) ("turn", ((0, 0), (1, 1))) 1 1
      (by decide)
      (@Reach.step ⟨2, [[1, 2], [2, 1]], [], 0, []⟩ ([(0, 0), (1, 1)], [])
        ([(0, 0), (0, 1), (1, 0), (1, 1)], []) ([(0, 0), (0, 1), (1, 0), (1, 1)], [])
        ("turn", ((0, 1), (1, 0))) 1 0 (by decide)
        (Reach.refl _)))
    (by decide)

/-! ### C2: known pairs are exploited first and exclusively -/

theorem length_filterMap_eq_filter {α β : Type} (f : α → Option β) (p : α → Bool)
    (hf : ∀ a, (f a).isSome = p a) :
    ∀ l : List α, (l.filterMap f).length = (l.filter p).length := by
  intro l
  induction l with
  | nil => rfl
  | cons a l ih =>
    rw [List.filterMap_cons, List.filter_cons]
    cases hfa : f a with
    | none =>
      have hpa : p a = false := by rw [← hf a, hfa]; rfl
      rw [hpa]
      simpa using ih
    | some b =>
      have hpa : p a = true := by rw [← hf a, hfa]; rfl
      rw [hpa]
      simpa using ih

theorem matchActions_isSome (matched : List Pos) (m : List Entry) (e : Entry) :
    (if 2 ≤ e.2.length then
      match e.2.filter (fun p => ¬ p ∈ matched) with
      | p1 :: p2 :: _ =>
        some (("match", (p1, p2)),
          (dedupSortPos (matched ++ [p1, p2]),
           canonSeen ((m.map (fun e2 =>
              (e2.1, e2.2.filter (fun x => ¬ (x = p1 ∨ x = p2))))).filter
              (fun e2 => ¬ e2.2 = []))),
          1)
      | _ => none
    else none).isSome = decide (2 ≤ (e.2.filter (fun p => ¬ p ∈ matched)).length) := by
  by_cases hlen : 2 ≤ e.2.length
  · rw [if_pos hlen]
    cases hav : e.2.filter (fun p => ¬ p ∈ matched) with
    | nil => simp [hav]
    | cons p1 tl =>
      cases tl with
      | nil => simp [hav]
      | cons p2 rest => simp [hav]
  · rw [if_neg hlen]
    have h2 : ¬ 2 ≤ (e.2.filter (fun p => ¬ p ∈ matched)).length := by
      intro hc
      exact hlen (le_trans hc (List.length_filter_le _ _))
    rw [show (none : Option (Act × SState × Nat)).isSome = false from rfl]
    symm
    rw [decide_eq_false_iff_not]
    exact h2

theorem matchActions_length (matched : List Pos) (m : List Entry) :
    (matchActions matched m).length =
      (m.filter (fun e => 2 ≤ (e.2.filter (fun p => ¬ p ∈ matched)).length)).length := by
  unfold matchActions
  exact length_filterMap_eq_filter _ _ (matchActions_isSome matched m) m

theorem matchActions_ne_nil {matched : List Pos} {m : List Entry}
    (hex : ∃ e ∈ m, 2 ≤ (e.2.filter (fun p => ¬ p ∈ matched)).length) :
    ¬ matchActions matched m = [] := by
  intro hnil
  obtain ⟨e, he, hlen⟩ := hex
  have h1 := matchActions_length matched m
  rw [hnil] at h1
  simp only [List.length_nil] at h1
  have h2 : e ∈ m.filter (fun e => 2 ≤ (e.2.filter (fun p => ¬ p ∈ matched)).length) :=
    List.mem_filter.2 ⟨he, by simpa using hlen⟩
  have h3 := List.length_pos_of_mem h2
  omega

/-- **C2.** If some remembered value has at least two unmatched
positions, the successor generator returns only `Match` actions — one per
qualifying value, pairing two distinct unmatched positions remembered
for that value — every transition costing 1, and no exploratory turns. -/
theorem C2_match_exclusive (g : Game) (s : SState)
    (hnd : ∀ e ∈ s.2, e.2.Nodup) (hk : (s.2.map Prod.fst).Nodup)
    (hex : ∃ e ∈ s.2, 2 ≤ (e.2.filter (fun p => ¬ p ∈ s.1)).length) :
    (∀ x ∈ successors_state s g, x.2.2 = 1 ∧
      ∃ v ps p1 p2, (v, ps) ∈ s.2 ∧ x.1 = ("match", (p1, p2)) ∧
        p1 ∈ ps ∧ p2 ∈ ps ∧ p1 ≠ p2 ∧ ¬ p1 ∈ s.1 ∧ ¬ p2 ∈ s.1) ∧
    (successors_state s g).length =
      (s.2.filter (fun e => 2 ≤ (e.2.filter (fun p => ¬ p ∈ s.1)).length)).length := by
  have heq : successors_state s g = matchActions s.1 s.2 := by
    unfold successors_state
    rw [toDict_id hk]
    dsimp only
    rw [if_neg (by
      intro hempty
      exact matchActions_ne_nil hex (List.isEmpty_iff.1 hempty))]
  rw [heq]
  constructor
  · intro x hx
    rcases matchActions_inv hx with ⟨e, he, p1, p2, rest, hlen, hfil, rfl⟩
    have hp1f : p1 ∈ e.2.filter (fun p => ¬ p ∈ s.1) := by
      rw [hfil]; exact List.mem_cons_self _ _
    have hp2f : p2 ∈ e.2.filter (fun p => ¬ p ∈ s.1) := by
      rw [hfil]; exact List.mem_cons_of_mem _ (List.mem_cons_self _ _)
    have hne : p1 ≠ p2 := by
      have hnd2 : (e.2.filter (fun p => ¬ p ∈ s.1)).Nodup := (hnd e he).filter _
      rw [hfil] at hnd2
      exact (List.nodup_cons.1 hnd2).1 ∘ fun h => h ▸ List.mem_cons_self _ _
    refine ⟨rfl, e.1, e.2, p1, p2, he, rfl, List.mem_of_mem_filter hp1f,
      List.mem_of_mem_filter hp2f, hne, ?_, ?_⟩
    · have := List.of_mem_filter hp1f; simpa using this
    · have := List.of_mem_filter hp2f; simpa using this
  · exact matchActions_length s.1 s.2

/-- Witness for C2: a state remembering two unmatched positions of value
3 yields exactly one match action. -/
theorem C2_match_exclusive_witness :
    (∀ x ∈ successors_state (([], [(3, [(0, 0), (1, 1)])]) : SState)
        ⟨2, [[3, 1], [1, 3]], [], 0, []⟩, x.2.2 = 1 ∧
      ∃ v ps p1 p2, (v, ps) ∈ ([(3, [(0, 0), (1, 1)])] : List Entry) ∧
        x.1 = ("match", (p1, p2)) ∧
        p1 ∈ ps ∧ p2 ∈ ps ∧ p1 ≠ p2 ∧ ¬ p1 ∈ ([] : List Pos) ∧ ¬ p2 ∈ ([] : List Pos)) ∧
    (successors_state (([], [(3, [(0, 0), (1, 1)])]) : SState)
        ⟨2, [[3, 1], [1, 3]], [], 0, []⟩).length =
      (([(3, [(0, 0), (1, 1)])] : List Entry).filter
        (fun e => 2 ≤ (e.2.filter (fun p => ¬ p ∈ ([] : List Pos))).length)).length :=
  C2_match_exclusive ⟨2, [[3, 1], [1, 3]], [], 0, []⟩ ([], [(3, [(0, 0), (1, 1)])])
    (by decide) (by decide) ⟨(3, [(0, 0), (1, 1)]), by decide, by decide⟩

/-! ### C5: the successor invariant, refuted and repaired -/

/-- **C5 counterexample.** A state satisfying the two spec invariants
whose remembered values lie about the board (position `(0,0)` is
remembered under value 2 but truly holds 1) yields a successor in which
`(0,0)` is both matched and still remembered: the exploratory match
removes the pair only from the list of its true value. -/
theorem C5_counterexample :
    WFState (([], [(1, [(1, 0)]), (2, [(0, 0)]), (3, [(0, 1)]), (4, [(1, 1)])]) : SState) ∧
    (("turn", ((0, 0), (0, 1))),
      (([(0, 0), (0, 1)] : List Pos),
       ([(1, [(1, 0)]), (2, [(0, 0)]), (3, [(0, 1)]), (4, [(1, 1)])] : List Entry)), 1) ∈
      successors_state (([], [(1, [(1, 0)]), (2, [(0, 0)]), (3, [(0, 1)]), (4, [(1, 1)])]) : SState)
        ⟨2, [[1, 1], [2, 2]], [], 0, []⟩ ∧
    ¬ WFState (([(0, 0), (0, 1)],
        [(1, [(1, 0)]), (2, [(0, 0)]), (3, [(0, 1)]), (4, [(1, 1)])]) : SState) := by
  decide

/-- **C5 (amended).** For parent states that additionally remember only
true board values (with duplicate-free remembered values and matched
list, as every snapshot and every generated state does), the successor
generator preserves the spec invariants and truthfulness. -/
theorem C5_amended_invariants (g : Game) (s : SState) (hs : GoodState g s) :
    ∀ x ∈ successors_state s g, WFState x.2.1 ∧ Faithful g x.2.1 := by
  intro x hx
  have h := succ_good hs x hx
  exact ⟨h.1, h.2.1⟩

/-- Witness for the amended C5 on a truthful remembered singleton: the
matching successor is itself well-formed and truthful. -/
theorem C5_amended_invariants_witness :
    WFState (([(0, 0), (1, 1)], []) : SState) ∧
      Faithful ⟨2, [[1, 2], [2, 1]], [], 0, []⟩ (([(0, 0), (1, 1)], []) : SState) :=
  C5_amended_invariants ⟨2, [[1, 2], [2, 1]], [], 0, []⟩ ([], [(1, [(0, 0)])]) (by decide)
    (("turn", ((1, 1), (0, 0))), (([(0, 0), (1, 1)], []) : SState), 1) (by decide)

/-! ### C6: the exploration phase's blind partners -/

/-- The positions currently remembered (per the state's own memory) and
not matched — the code's `seen_positions`. -/
def rememberedUnmatched (s : SState) : List Pos :=
  (toDict s.2).flatMap (fun e => e.2.filter (fun p => ¬ p ∈ s.1))

/-- A position that is unseen from the point of view of a search state:
unmatched, not in the live game's memory, and not in the state's own
remembered positions — the code's `unseen` condition. -/
def unseenIn (g : Game) (s : SState) (p : Pos) : Prop :=
  ¬ p ∈ s.1 ∧ ¬ (g.seen.any (fun pv => pv.1 == p)) = true ∧
  ¬ p ∈ (toDict s.2).flatMap (fun e => e.2)

instance (g : Game) (s : SState) (p : Pos) : Decidable (unseenIn g s p) := by
  unfold unseenIn; infer_instance

/-- **C6 counterexample.** In an exploration phase (no known pair), the
generator pairs candidate `(0,0)` with `(0,1)`, a position that is
neither remembered in the state nor unseen (it sits in the live game's
`seen` memory): blind exploration draws partners from all unmatched
positions, not only unseen ones. -/
theorem C6_counterexample :
    matchActions ([] : List Pos) (toDict ([] : List Entry)) = [] ∧
    (("turn", ((0, 0), (0, 1))),
      (([] : List Pos), ([(1, [(0, 0)]), (2, [(0, 1)])] : List Entry)), 1) ∈
      successors_state (([], []) : SState) ⟨2, [[1, 2], [2, 1]], [], 0, [((0, 1), 2)]⟩ ∧
    ¬ ((0, 1) : Pos) ∈ rememberedUnmatched (([], []) : SState) ∧
    ¬ unseenIn ⟨2, [[1, 2], [2, 1]], [], 0, [((0, 1), 2)]⟩ (([], []) : SState) ((0, 1) : Pos) :=
  ⟨by decide, by decide, by decide, by decide⟩

theorem all_positions_nodup (g : Game) : (all_positions g).Nodup := by
  unfold all_positions
  rw [List.nodup_flatMap]
  constructor
  · intro r _
    exact (List.nodup_range _).map (fun c1 c2 h => by
      have := congrArg Prod.snd h
      simpa using this)
  · have hnd : List.Pairwise (fun a b => a ≠ b) (List.range g.size) := List.nodup_range _
    refine hnd.imp ?_
    intro r1 r2 hne
    rw [Function.onFun, List.disjoint_left]
    intro a ha hb
    rcases List.mem_map.1 ha with ⟨c1, _, rfl⟩
    rcases List.mem_map.1 hb with ⟨c2, _, heq⟩
    exact hne (by simpa using (congrArg Prod.fst heq).symm)

theorem countP_flatMap_le_of_block {α β : Type} (p : β → Bool) (f : α → List β) (c : α)
    (bound : Nat) :
    ∀ l : List α, l.Nodup →
      (∀ a ∈ l, a ≠ c → ∀ b ∈ f a, p b = false) →
      (f c).countP p ≤ bound →
      (l.flatMap f).countP p ≤ bound := by
  intro l
  induction l with
  | nil => intro _ _ _; simp
  | cons a l ih =>
    intro hnd hother hc
    rw [List.flatMap_cons, List.countP_append]
    by_cases hac : a = c
    · subst hac
      have hzero : (l.flatMap f).countP p = 0 := by
        rw [List.countP_eq_zero]
        intro b hb
        rcases List.mem_flatMap.1 hb with ⟨a2, ha2, hba⟩
        have hne : a2 ≠ a := fun h => (List.nodup_cons.1 hnd).1 (h ▸ ha2)
        simp [hother a2 (List.mem_cons_of_mem _ ha2) hne b hba]
      omega
    · have hzero : (f a).countP p = 0 := by
        rw [List.countP_eq_zero]
        intro b hb
        simp [hother a (List.mem_cons_self _ _) hac b hb]
      have := ih (List.nodup_cons.1 hnd).2
        (fun a2 ha2 => hother a2 (List.mem_cons_of_mem _ ha2)) hc
      omega

/-- **C6 (amended).** In the exploration phase (no known pair), every
generated action is a unit-cost `Turn` pairing two distinct unmatched
positions; the partner is either a remembered unmatched position (a
memory probe) or an unmatched board position — not necessarily unseen —
and each candidate gets at most `K` non-probe partners. -/
theorem C6_amended (g : Game) (s : SState)
    (hma : matchActions s.1 (toDict s.2) = []) :
    (∀ x ∈ successors_state s g, x.2.2 = 1 ∧ ∃ c d, x.1 = ("turn", (c, d)) ∧ c ≠ d ∧
      ¬ c ∈ s.1 ∧ ¬ d ∈ s.1 ∧ (d ∈ rememberedUnmatched s ∨ d ∈ all_positions g)) ∧
    (∀ c : Pos, (successors_state s g).countP
      (fun x => decide (x.1.2.1 = c ∧ ¬ x.1.2.2 ∈ rememberedUnmatched s)) ≤ K) := by
  have heq : successors_state s g = explorationActions g s.1 (toDict s.2) := by
    unfold successors_state
    dsimp only
    rw [if_pos (List.isEmpty_iff.2 hma)]
  rw [heq]
  unfold explorationActions
  dsimp only
  constructor
  · intro x hx
    rcases List.mem_flatMap.1 hx with ⟨c, hc, hxc⟩
    have hcu : c ∈ (all_positions g).filter (fun p => ¬ p ∈ s.1) := by
      have h1 := List.mem_of_mem_take hc
      split at h1
      · exact h1
      · exact List.mem_of_mem_filter h1
    have hcm : ¬ c ∈ s.1 := by
      have := List.of_mem_filter hcu
      simpa using this
    rcases List.mem_append.1 hxc with hx2 | hx2
    · rcases List.mem_filterMap.1 hx2 with ⟨d, hd, hfd⟩
      split at hfd
      · exact absurd hfd (by simp)
      case isFalse hne =>
        rw [Option.some_inj] at hfd
        subst hfd
        have hdm : ¬ d ∈ s.1 := by
          rcases List.mem_flatMap.1 hd with ⟨e, _, hde⟩
          have := List.of_mem_filter hde
          simpa using this
        exact ⟨turnResult_cost _ _ _ _ _, c, d, turnResult_act _ _ _ _ _,
          fun h => hne (h ▸ rfl), hcm, hdm, Or.inl hd⟩
    · rcases List.mem_map.1 hx2 with ⟨d, hd, hfd⟩
      subst hfd
      have hd2 := List.mem_of_mem_take (List.mem_of_mem_take hd)
      have hdm : ¬ d ∈ s.1 := by
        have := List.of_mem_filter (List.mem_of_mem_filter hd2)
        simpa using this
      have hdc : ¬ d = c := by
        have := List.of_mem_filter hd2
        simpa using this
      exact ⟨turnResult_cost _ _ _ _ _, c, d, turnResult_act _ _ _ _ _,
        fun h => hdc (h ▸ rfl), hcm, hdm,
        Or.inr (List.mem_of_mem_filter (List.mem_of_mem_filter hd2))⟩
  · intro c
    set pm := fun x : Act × SState × Nat =>
      decide (x.1.2.1 = c ∧ ¬ x.1.2.2 ∈ rememberedUnmatched s) with hpm
    apply countP_flatMap_le_of_block
    · have hnd0 : ((all_positions g).filter (fun p => ¬ p ∈ s.1)).Nodup :=
        (all_positions_nodup g).filter _
      have hnd1 : (if ((all_positions g).filter (fun p => ¬ p ∈ s.1)).filter
          (fun p => ¬ (g.seen.any (fun pv => pv.1 == p)) ∧
            ¬ p ∈ (toDict s.2).flatMap (fun e => e.2)) = []
          then (all_positions g).filter (fun p => ¬ p ∈ s.1)
          else ((all_positions g).filter (fun p => ¬ p ∈ s.1)).filter
            (fun p => ¬ (g.seen.any (fun pv => pv.1 == p)) ∧
              ¬ p ∈ (toDict s.2).flatMap (fun e => e.2))).Nodup := by
        split
        · exact hnd0
        · exact hnd0.filter _
      exact (List.take_sublist _ _).nodup hnd1
    · intro a _ hane x hxa
      rcases List.mem_append.1 hxa with hx2 | hx2
      · rcases List.mem_filterMap.1 hx2 with ⟨d, _, hfd⟩
        split at hfd
        · exact absurd hfd (by simp)
        · rw [Option.some_inj] at hfd
          subst hfd
          have h1 : (turnResult g s.1 (toDict s.2) a d).1.2.1 = a := by rw [turnResult_act]
          rw [hpm, decide_eq_false_iff_not]
          intro hcon
          obtain ⟨hc1, _⟩ := hcon
          rw [h1] at hc1
          exact hane hc1
      · rcases List.mem_map.1 hx2 with ⟨d, _, hfd⟩
        subst hfd
        have h1 : (turnResult g s.1 (toDict s.2) a d).1.2.1 = a := by rw [turnResult_act]
        rw [hpm, decide_eq_false_iff_not]
        intro hcon
        obtain ⟨hc1, _⟩ := hcon
        rw [h1] at hc1
        exact hane hc1
    · rw [List.countP_append]
      have hprobe : (((toDict s.2).flatMap (fun e => e.2.filter (fun p => ¬ p ∈ s.1))).filterMap
          (fun d => if d = c then none
            else some (turnResult g s.1 (toDict s.2) c d))).countP pm = 0 := by
        rw [List.countP_eq_zero]
        intro x hx
        rcases List.mem_filterMap.1 hx with ⟨d, hd, hfd⟩
        split at hfd
        · exact absurd hfd (by simp)
        · rw [Option.some_inj] at hfd
          subst hfd
          have h1 : (turnResult g s.1 (toDict s.2) c d).1.2.2 = d := by rw [turnResult_act]
          intro hcon
          simp only [hpm, decide_eq_true_eq] at hcon
          obtain ⟨_, hc2⟩ := hcon
          rw [h1] at hc2
          exact hc2 hd
      have hb2 : ((((((all_positions g).filter (fun p => ¬ p ∈ s.1)).filter
          (fun p => ¬ p = c)).take K).take K).map
          (fun d => turnResult g s.1 (toDict s.2) c d)).countP pm ≤ K := by
        calc ((((((all_positions g).filter (fun p => ¬ p ∈ s.1)).filter
              (fun p => ¬ p = c)).take K).take K).map
              (fun d => turnResult g s.1 (toDict s.2) c d)).countP pm
            ≤ ((((((all_positions g).filter (fun p => ¬ p ∈ s.1)).filter
              (fun p => ¬ p = c)).take K).take K).map
              (fun d => turnResult g s.1 (toDict s.2) c d)).length :=
              List.countP_le_length pm
          _ = (((((all_positions g).filter (fun p => ¬ p ∈ s.1)).filter
              (fun p => ¬ p = c)).take K).take K).length := List.length_map _ _
          _ ≤ K := List.length_take_le _ _
      omega

/-- Witness for the amended C6 on a fresh 2×2 game. -/
theorem C6_amended_witness :
    (∀ x ∈ successors_state (([], []) : SState) ⟨2, [[1, 2], [2, 1]], [], 0, []⟩,
      x.2.2 = 1 ∧ ∃ c d, x.1 = ("turn", (c, d)) ∧ c ≠ d ∧
      ¬ c ∈ (([], []) : SState).1 ∧ ¬ d ∈ (([], []) : SState).1 ∧
      (d ∈ rememberedUnmatched (([], []) : SState) ∨
        d ∈ all_positions ⟨2, [[1, 2], [2, 1]], [], 0, []⟩)) ∧
    (∀ c : Pos, (successors_state (([], []) : SState)
        ⟨2, [[1, 2], [2, 1]], [], 0, []⟩).countP
      (fun x => decide (x.1.2.1 = c ∧
        ¬ x.1.2.2 ∈ rememberedUnmatched (([], []) : SState))) ≤ K) :=
  C6_amended ⟨2, [[1, 2], [2, 1]], [], 0, []⟩ ([], []) (by decide)

/-! ### C7: canonicalization is idempotent and order-independent -/

theorem msort_coe (l : List Pos) : Multiset.sort posLe (↑l) = sortPos l := by
  apply List.eq_of_perm_of_sorted ?_ (Multiset.sort_sorted posLe _) (sortPos_sorted l)
  have h1 : List.Perm (Multiset.sort posLe (↑l)) l :=
    Multiset.coe_eq_coe.1 (Multiset.sort_eq posLe (↑l))
  exact h1.trans (sortPos_perm l).symm

/-- **C7.** `state_to_key` is idempotent, and any two states with the
same matched multiset and the same value-to-position-multiset memory
(regardless of element or insertion order) get equal keys. -/
theorem C7_canonicalization :
    (∀ s : SState, state_to_key (state_to_key s) = state_to_key s) ∧
    (∀ s t : SState, List.Perm s.1 t.1 →
      ((s.2.map (fun e => (e.1, (e.2 : Multiset Pos))) : List (Nat × Multiset Pos)) :
          Multiset (Nat × Multiset Pos)) =
        ((t.2.map (fun e => (e.1, (e.2 : Multiset Pos))) : List (Nat × Multiset Pos)) :
          Multiset (Nat × Multiset Pos)) →
      state_to_key s = state_to_key t) := by
  have hff : ∀ e : Entry, ((fun e : Entry => (e.1, sortPos e.2))
      ((fun e : Entry => (e.1, sortPos e.2)) e)) = (fun e : Entry => (e.1, sortPos e.2)) e := by
    intro e
    simp only
    rw [sortPos_idem]
  constructor
  · intro s
    unfold state_to_key
    refine Prod.ext ?_ ?_
    · exact sortPos_idem _
    · simp only
      have h1 : List.Perm ((sortEntries (s.2.map (fun e => (e.1, sortPos e.2)))).map
            (fun e => (e.1, sortPos e.2)))
          ((s.2.map (fun e => (e.1, sortPos e.2))).map (fun e => (e.1, sortPos e.2))) :=
        (sortEntries_perm _).map _
      have h2 : (s.2.map (fun e => (e.1, sortPos e.2))).map (fun e => (e.1, sortPos e.2)) =
          s.2.map (fun e => (e.1, sortPos e.2)) := by
        rw [List.map_map]
        exact List.map_congr_left (fun e _ => hff e)
      rw [h2] at h1
      rw [sortEntries_canon h1]
  · intro s t hm hseen
    have hperm : List.Perm (s.2.map (fun e => (e.1, (e.2 : Multiset Pos))))
        (t.2.map (fun e => (e.1, (e.2 : Multiset Pos)))) := Multiset.coe_eq_coe.1 hseen
    have hperm2 : List.Perm (s.2.map (fun e => (e.1, sortPos e.2)))
        (t.2.map (fun e => (e.1, sortPos e.2))) := by
      have h1 := hperm.map (fun em : Nat × Multiset Pos => (em.1, Multiset.sort posLe em.2))
      rw [List.map_map, List.map_map] at h1
      have h2 : ∀ (u : List Entry), u.map ((fun em : Nat × Multiset Pos =>
          (em.1, Multiset.sort posLe em.2)) ∘ (fun e => (e.1, (e.2 : Multiset Pos)))) =
          u.map (fun e => (e.1, sortPos e.2)) := by
        intro u
        apply List.map_congr_left
        intro e _
        simp only [Function.comp]
        rw [msort_coe]
      rw [h2, h2] at h1
      exact h1
    unfold state_to_key
    refine Prod.ext ?_ ?_
    · exact sortPos_canon hm
    · exact sortEntries_canon hperm2

/-- Witness for C7: two differently-ordered snapshots of the same
knowledge canonicalize identically. -/
theorem C7_canonicalization_witness :
    state_to_key (([(1, 1), (0, 0)], [(2, [(0, 1)]), (1, [(1, 2), (1, 0)])]) : SState) =
      state_to_key (([(0, 0), (1, 1)], [(1, [(1, 0), (1, 2)]), (2, [(0, 1)])]) : SState) :=
  C7_canonicalization.2 ([(1, 1), (0, 0)], [(2, [(0, 1)]), (1, [(1, 2), (1, 0)])])
    ([(0, 0), (1, 1)], [(1, [(1, 0), (1, 2)]), (2, [(0, 1)])]) (by decide) (by decide)

/-! ### C8: the fallback policy always yields a usable action -/

theorem pick_mem {l : List Pos} (h : l ≠ []) (r : Nat) : pick l r ∈ l := by
  unfold pick
  have hlt : r % l.length < l.length := Nat.mod_lt _ (List.length_pos.2 h)
  rw [List.getD_eq_getElem l _ hlt]
  exact List.getElem_mem hlt

theorem all_positions_length (g : Game) : (all_positions g).length = g.size * g.size := by
  unfold all_positions
  rw [List.length_flatMap]
  simp [Function.comp_def, List.map_const', List.sum_replicate]

theorem unmatched_ne_nil {g : Game} (hmn : g.matched.Nodup)
    (hmv : ∀ p ∈ g.matched, p ∈ all_positions g) (hnf : is_finished g = false) :
    (all_positions g).filter (fun p => ¬ p ∈ g.matched) ≠ [] := by
  intro hnil
  have hsub : ∀ p ∈ all_positions g, p ∈ g.matched := by
    intro p hp
    by_contra hnp
    have hmem : p ∈ (all_positions g).filter (fun p => ¬ p ∈ g.matched) :=
      List.mem_filter.2 ⟨hp, by simpa using hnp⟩
    rw [hnil] at hmem
    exact absurd hmem (List.not_mem_nil p)
  have h1 : g.matched.length ≤ (all_positions g).length :=
    (hmn.subperm (fun p hp => hmv p hp)).length_le
  have h2 : (all_positions g).length ≤ g.matched.length :=
    ((all_positions_nodup g).subperm (fun p hp => hsub p hp)).length_le
  have hlen : g.matched.length = g.size * g.size := by
    rw [← all_positions_length g]; omega
  unfold is_finished Game.total_pairs at hnf
  rw [hlen] at hnf
  simp at hnf

theorem nodup_all_eq_singleton {l : List Pos} {p : Pos} (hnd : l.Nodup) (hp : p ∈ l)
    (hall : ∀ q ∈ l, q = p) : l = [p] := by
  cases l with
  | nil => exact absurd hp (List.not_mem_nil p)
  | cons a tl =>
    have ha : a = p := hall a (List.mem_cons_self _ _)
    subst ha
    have htl : tl = [] := by
      rw [List.eq_nil_iff_forall_not_mem]
      intro q hq
      have : q = a := hall q (List.mem_cons_of_mem _ hq)
      exact (List.nodup_cons.1 hnd).1 (this ▸ hq)
    rw [htl]

/-- **C8.** For every non-finished consistent live game, the fallback
policy returns a turn whose two positions are valid board positions that
are currently unmatched, and the two positions coincide exactly when a
single unmatched position remains (the documented degenerate case). -/
theorem C8_fallback_usable (g : Game) (r1 r2 : Nat)
    (hmn : g.matched.Nodup) (hmv : ∀ p ∈ g.matched, p ∈ all_positions g)
    (hkn : (g.seen.map Prod.fst).Nodup) (hkv : ∀ pv ∈ g.seen, pv.1 ∈ all_positions g)
    (hnf : is_finished g = false) :
    ∃ p1 p2, greedy_policy g r1 r2 = ("turn", (p1, p2)) ∧
      p1 ∈ all_positions g ∧ p2 ∈ all_positions g ∧
      ¬ p1 ∈ g.matched ∧ ¬ p2 ∈ g.matched ∧
      (p1 = p2 ↔ (all_positions g).filter (fun p => ¬ p ∈ g.matched) = [p1]) := by
  have hune := unmatched_ne_nil hmn hmv hnf
  have hundup : ((all_positions g).filter (fun p => ¬ p ∈ g.matched)).Nodup :=
    (all_positions_nodup g).filter _
  unfold greedy_policy
  cases hfind : (seen_pairs g).find? (fun e => 2 ≤ e.2.length) with
  | some e =>
    dsimp only
    have hmem := List.mem_of_find?_eq_some hfind
    have hlen : 2 ≤ e.2.length := by
      have := List.find?_some hfind
      simpa using this
    have hsp := (seen_pairs_spec g hkn).1 e hmem
    obtain ⟨q1, tl, htl⟩ : ∃ q1 tl, e.2 = q1 :: tl := by
      cases he2 : e.2 with
      | nil => rw [he2] at hlen; simp at hlen
      | cons a b => exact ⟨a, b, rfl⟩
    obtain ⟨q2, tl2, htl2⟩ : ∃ q2 tl2, tl = q2 :: tl2 := by
      cases htl' : tl with
      | nil => rw [htl, htl'] at hlen; simp at hlen
      | cons a b => exact ⟨a, b, rfl⟩
    subst htl2
    have hq1 : q1 ∈ e.2 := htl ▸ List.mem_cons_self _ _
    have hq2 : q2 ∈ e.2 := htl ▸ List.mem_cons_of_mem _ (List.mem_cons_self _ _)
    have hne12 : q1 ≠ q2 := by
      have hnd := hsp.1.2
      rw [htl] at hnd
      exact (List.nodup_cons.1 hnd).1 ∘ fun h => h ▸ List.mem_cons_self _ _
    have hv1 : q1 ∈ all_positions g := hkv _ (hsp.2 q1 hq1).1
    have hv2 : q2 ∈ all_positions g := hkv _ (hsp.2 q2 hq2).1
    have hm1 : ¬ q1 ∈ g.matched := (hsp.2 q1 hq1).2
    have hm2 : ¬ q2 ∈ g.matched := (hsp.2 q2 hq2).2
    refine ⟨q1, q2, ?_, hv1, hv2, hm1, hm2, ?_⟩
    · rw [htl]
      rfl
    · constructor
      · intro h; exact absurd h hne12
      · intro hsing
        have : q2 ∈ (all_positions g).filter (fun p => ¬ p ∈ g.matched) :=
          List.mem_filter.2 ⟨hv2, by simpa using hm2⟩
        rw [hsing] at this
        exact absurd (List.mem_singleton.1 this).symm hne12
  | none =>
    dsimp only
    set um := (all_positions g).filter (fun p => ¬ p ∈ g.matched) with hum
    set us0 := um.filter (fun p => ¬ (g.seen.any (fun pv => pv.1 == p))) with hus0
    set us := if us0 = [] then um else us0 with hus
    have huseen : us ≠ [] := by
      rw [hus]
      split
      · exact hune
      case isFalse h => exact h
    have hussub : ∀ p ∈ us, p ∈ um := by
      intro p hp
      rw [hus] at hp
      split at hp
      · exact hp
      · exact List.mem_of_mem_filter hp
    have hp1u : pick us r1 ∈ um := hussub _ (pick_mem huseen r1)
    have hp1v : pick us r1 ∈ all_positions g := List.mem_of_mem_filter hp1u
    have hp1m : ¬ pick us r1 ∈ g.matched := by
      have := List.of_mem_filter hp1u
      simpa using this
    cases hfind2 : g.seen.find? (fun pv => pv.2 == value_at g (pick us r1) &&
        ¬ pv.1 = pick us r1 && ¬ pv.1 ∈ g.matched) with
    | some pv =>
      dsimp only
      have hmem2 := List.mem_of_find?_eq_some hfind2
      have hpred := List.find?_some hfind2
      simp only [Bool.and_eq_true, beq_iff_eq, decide_eq_true_eq] at hpred
      refine ⟨_, pv.1, rfl, hp1v, hkv pv hmem2, hp1m, hpred.2, ?_⟩
      constructor
      · intro h; exact absurd h.symm hpred.1.2
      · intro hsing
        have : pv.1 ∈ um :=
          List.mem_filter.2 ⟨hkv pv hmem2, by simpa using hpred.2⟩
        rw [hsing] at this
        exact absurd (List.mem_singleton.1 this) hpred.1.2
    | none =>
      dsimp only
      by_cases hrem : um.filter (fun p => ¬ p = pick us r1) = []
      · rw [if_pos hrem]
        refine ⟨_, _, rfl, hp1v, hp1v, hp1m, hp1m, ?_⟩
        have hall : ∀ q ∈ um, q = pick us r1 := by
          intro q hq
          by_contra hne
          have : q ∈ um.filter (fun p => ¬ p = pick us r1) :=
            List.mem_filter.2 ⟨hq, by simpa using hne⟩
          rw [hrem] at this
          exact absurd this (List.not_mem_nil q)
        exact ⟨fun _ => nodup_all_eq_singleton hundup hp1u hall, fun _ => rfl⟩
      · rw [if_neg hrem]
        have hp2r := pick_mem hrem r2
        have hp2u := List.mem_of_mem_filter hp2r
        have hp2ne : ¬ pick (um.filter (fun p => ¬ p = pick us r1)) r2 = pick us r1 := by
          have := List.of_mem_filter hp2r
          simpa using this
        refine ⟨_, _, rfl, hp1v, List.mem_of_mem_filter hp2u, hp1m, ?_, ?_⟩
        · have := List.of_mem_filter hp2u
          simpa using this
        · constructor
          · intro h; exact absurd h.symm hp2ne
          · intro hsing
            have h3 := List.mem_of_mem_filter hp2r
            have hall2 : ∀ q, q ∈ um → q = pick us r1 := by
              intro q hq
              rw [hsing] at hq
              exact List.mem_singleton.1 hq
            exact (hp2ne (hall2 _ h3)).elim

/-- Witness for C8 on a concrete non-finished game with one seen card. -/
theorem C8_fallback_usable_witness :
    ∃ p1 p2, greedy_policy ⟨2, [[1, 2], [2, 1]], [(0, 0), (1, 1)], 1, [((0, 1), 2)]⟩ 0 1 =
        ("turn", (p1, p2)) ∧
      p1 ∈ all_positions ⟨2, [[1, 2], [2, 1]], [(0, 0), (1, 1)], 1, [((0, 1), 2)]⟩ ∧
      p2 ∈ all_positions ⟨2, [[1, 2], [2, 1]], [(0, 0), (1, 1)], 1, [((0, 1), 2)]⟩ ∧
      ¬ p1 ∈ [((0 : Nat), (0 : Nat)), (1, 1)] ∧ ¬ p2 ∈ [((0 : Nat), (0 : Nat)), (1, 1)] ∧
      (p1 = p2 ↔ (all_positions ⟨2, [[1, 2], [2, 1]], [(0, 0), (1, 1)], 1, [((0, 1), 2)]⟩).filter
        (fun p => ¬ p ∈ [((0 : Nat), (0 : Nat)), (1, 1)]) = [p1]) :=
  C8_fallback_usable ⟨2, [[1, 2], [2, 1]], [(0, 0), (1, 1)], 1, [((0, 1), 2)]⟩ 0 1
    (by decide) (by decide) (by decide) (by decide) (by decide)

/-! ### C9: the frontier's pop order -/

theorem plistLtB_irrefl (l : List Pos) : plistLtB l l = false := by
  induction l with
  | nil => rfl
  | cons a as ih =>
    simp only [plistLtB, Bool.or_eq_false_iff, Bool.and_eq_false_iff]
    exact ⟨posLtB_irrefl a, Or.inr ih⟩

theorem plistLtB_trichotomy (l1 l2 : List Pos) :
    plistLtB l1 l2 = true ∨ l1 = l2 ∨ plistLtB l2 l1 = true := by
  induction l1 generalizing l2 with
  | nil =>
    cases l2 with
    | nil => exact Or.inr (Or.inl rfl)
    | cons b bs => exact Or.inl rfl
  | cons a as ih =>
    cases l2 with
    | nil => exact Or.inr (Or.inr rfl)
    | cons b bs =>
      simp only [plistLtB, Bool.or_eq_true, Bool.and_eq_true, beq_iff_eq]
      rcases posLtB_trichotomy a b with h | h | h
      · exact Or.inl (Or.inl h)
      · rcases ih bs with h2 | h2 | h2
        · exact Or.inl (Or.inr ⟨h, h2⟩)
        · exact Or.inr (Or.inl (by rw [h, h2]))
        · exact Or.inr (Or.inr (Or.inr ⟨h.symm, h2⟩))
      · exact Or.inr (Or.inr (Or.inl h))

theorem plistLtB_trans {l1 l2 l3 : List Pos} (h1 : plistLtB l1 l2 = true)
    (h2 : plistLtB l2 l3 = true) : plistLtB l1 l3 = true := by
  induction l1 generalizing l2 l3 with
  | nil =>
    cases l3 with
    | nil =>
      cases l2 with
      | nil => exact h1
      | cons b bs => simp [plistLtB] at h2
    | cons c cs => rfl
  | cons a as ih =>
    cases l2 with
    | nil => simp [plistLtB] at h1
    | cons b bs =>
      cases l3 with
      | nil => simp [plistLtB] at h2
      | cons c cs =>
        simp only [plistLtB, Bool.or_eq_true, Bool.and_eq_true, beq_iff_eq] at *
        rcases h1 with h1 | ⟨rfl, h1⟩
        · rcases h2 with h2 | ⟨rfl, h2⟩
          · exact Or.inl (posLtB_trans h1 h2)
          · exact Or.inl h1
        · rcases h2 with h2 | ⟨rfl, h2⟩
          · exact Or.inl h2
          · exact Or.inr ⟨rfl, ih h1 h2⟩

theorem entryLtB_irrefl (e : Entry) : entryLtB e e = false := by
  simp only [entryLtB, Bool.or_eq_false_iff, Bool.and_eq_false_iff]
  exact ⟨by simp, Or.inr (plistLtB_irrefl e.2)⟩

theorem entryLtB_trichotomy (a b : Entry) :
    entryLtB a b = true ∨ a = b ∨ entryLtB b a = true := by
  simp only [entryLtB, Bool.or_eq_true, Bool.and_eq_true, beq_iff_eq, decide_eq_true_eq]
  rcases Nat.lt_trichotomy a.1 b.1 with h | h | h
  · exact Or.inl (Or.inl h)
  · rcases plistLtB_trichotomy a.2 b.2 with h2 | h2 | h2
    · exact Or.inl (Or.inr ⟨h, h2⟩)
    · exact Or.inr (Or.inl (Prod.ext h h2))
    · exact Or.inr (Or.inr (Or.inr ⟨h.symm, h2⟩))
  · exact Or.inr (Or.inr (Or.inl h))

theorem entryLtB_trans {a b c : Entry} (h1 : entryLtB a b = true)
    (h2 : entryLtB b c = true) : entryLtB a c = true := by
  simp only [entryLtB, Bool.or_eq_true, Bool.and_eq_true, beq_iff_eq, decide_eq_true_eq] at *
  rcases h1 with h1 | ⟨e1, h1⟩
  · rcases h2 with h2 | ⟨e2, h2⟩
    · exact Or.inl (Nat.lt_trans h1 h2)
    · exact Or.inl (e2 ▸ h1)
  · rcases h2 with h2 | ⟨e2, h2⟩
    · exact Or.inl (e1 ▸ h2)
    · exact Or.inr ⟨e1.trans e2, plistLtB_trans h1 h2⟩

theorem elistLtB_irrefl (l : List Entry) : elistLtB l l = false := by
  induction l with
  | nil => rfl
  | cons a as ih =>
    simp only [elistLtB, Bool.or_eq_false_iff, Bool.and_eq_false_iff]
    exact ⟨entryLtB_irrefl a, Or.inr ih⟩

theorem elistLtB_trichotomy (l1 l2 : List Entry) :
    elistLtB l1 l2 = true ∨ l1 = l2 ∨ elistLtB l2 l1 = true := by
  induction l1 generalizing l2 with
  | nil =>
    cases l2 with
    | nil => exact Or.inr (Or.inl rfl)
    | cons b bs => exact Or.inl rfl
  | cons a as ih =>
    cases l2 with
    | nil => exact Or.inr (Or.inr rfl)
    | cons b bs =>
      simp only [elistLtB, Bool.or_eq_true, Bool.and_eq_true, beq_iff_eq]
      rcases entryLtB_trichotomy a b with h | h | h
      · exact Or.inl (Or.inl h)
      · rcases ih bs with h2 | h2 | h2
        · exact Or.inl (Or.inr ⟨h, h2⟩)
        · exact Or.inr (Or.inl (by rw [h, h2]))
        · exact Or.inr (Or.inr (Or.inr ⟨h.symm, h2⟩))
      · exact Or.inr (Or.inr (Or.inl h))

theorem elistLtB_trans {l1 l2 l3 : List Entry} (h1 : elistLtB l1 l2 = true)
    (h2 : elistLtB l2 l3 = true) : elistLtB l1 l3 = true := by
  induction l1 generalizing l2 l3 with
  | nil =>
    cases l3 with
    | nil =>
      cases l2 with
      | nil => exact h1
      | cons b bs => simp [elistLtB] at h2
    | cons c cs => rfl
  | cons a as ih =>
    cases l2 with
    | nil => simp [elistLtB] at h1
    | cons b bs =>
      cases l3 with
      | nil => simp [elistLtB] at h2
      | cons c cs =>
        simp only [elistLtB, Bool.or_eq_true, Bool.and_eq_true, beq_iff_eq] at *
        rcases h1 with h1 | ⟨rfl, h1⟩
        · rcases h2 with h2 | ⟨rfl, h2⟩
          · exact Or.inl (entryLtB_trans h1 h2)
          · exact Or.inl h1
        · rcases h2 with h2 | ⟨rfl, h2⟩
          · exact Or.inl h2
          · exact Or.inr ⟨rfl, ih h1 h2⟩

theorem stateLtB_irrefl (s : SState) : stateLtB s s = false := by
  simp only [stateLtB, Bool.or_eq_false_iff, Bool.and_eq_false_iff]
  exact ⟨plistLtB_irrefl s.1, Or.inr (elistLtB_irrefl s.2)⟩

theorem stateLtB_trichotomy (s t : SState) :
    stateLtB s t = true ∨ s = t ∨ stateLtB t s = true := by
  simp only [stateLtB, Bool.or_eq_true, Bool.and_eq_true, beq_iff_eq]
  rcases plistLtB_trichotomy s.1 t.1 with h | h | h
  · exact Or.inl (Or.inl h)
  · rcases elistLtB_trichotomy s.2 t.2 with h2 | h2 | h2
    · exact Or.inl (Or.inr ⟨h, h2⟩)
    · exact Or.inr (Or.inl (Prod.ext h h2))
    · exact Or.inr (Or.inr (Or.inr ⟨h.symm, h2⟩))
  · exact Or.inr (Or.inr (Or.inl h))

theorem stateLtB_trans {s t u : SState} (h1 : stateLtB s t = true)
    (h2 : stateLtB t u = true) : stateLtB s u = true := by
  simp only [stateLtB, Bool.or_eq_true, Bool.and_eq_true, beq_iff_eq] at *
  rcases h1 with h1 | ⟨e1, h1⟩
  · rcases h2 with h2 | ⟨e2, h2⟩
    · exact Or.inl (plistLtB_trans h1 h2)
    · exact Or.inl (e2 ▸ h1)
  · rcases h2 with h2 | ⟨e2, h2⟩
    · exact Or.inl (e1 ▸ h2)
    · exact Or.inr ⟨e1.trans e2, elistLtB_trans h1 h2⟩

theorem nodeKeyLtB_irrefl (n : Node) : nodeKeyLtB n n = false := by
  simp only [nodeKeyLtB, Bool.or_eq_false_iff, Bool.and_eq_false_iff]
  refine ⟨by simp, Or.inr ⟨by simp, Or.inr (stateLtB_irrefl n.state)⟩⟩

theorem nodeKeyLtB_iff {a b : Node} :
    nodeKeyLtB a b = true ↔
      a.f < b.f ∨ (a.f = b.f ∧ (a.g < b.g ∨ (a.g = b.g ∧ stateLtB a.state b.state = true))) := by
  simp [nodeKeyLtB]

theorem nodeKeyLtB_trans {a b c : Node} (h1 : nodeKeyLtB a b = true)
    (h2 : nodeKeyLtB b c = true) : nodeKeyLtB a c = true := by
  rw [nodeKeyLtB_iff] at *
  rcases h1 with h1 | ⟨e1, h1⟩
  · rcases h2 with h2 | ⟨e2, _⟩
    · exact Or.inl (lt_trans h1 h2)
    · exact Or.inl (e2 ▸ h1)
  · rcases h2 with h2 | ⟨e2, h2⟩
    · exact Or.inl (e1 ▸ h2)
    · refine Or.inr ⟨e1.trans e2, ?_⟩
      rcases h1 with h1 | ⟨g1, h1⟩
      · rcases h2 with h2 | ⟨g2, _⟩
        · exact Or.inl (Nat.lt_trans h1 h2)
        · exact Or.inl (g2 ▸ h1)
      · rcases h2 with h2 | ⟨g2, h2⟩
        · exact Or.inl (g1 ▸ h2)
        · exact Or.inr ⟨g1.trans g2, stateLtB_trans h1 h2⟩

theorem nodeKeyLtB_trichotomy (a b : Node) :
    nodeKeyLtB a b = true ∨ (a.f = b.f ∧ a.g = b.g ∧ a.state = b.state) ∨
      nodeKeyLtB b a = true := by
  rw [nodeKeyLtB_iff, nodeKeyLtB_iff]
  rcases lt_trichotomy a.f b.f with h | h | h
  · exact Or.inl (Or.inl h)
  · rcases Nat.lt_trichotomy a.g b.g with h2 | h2 | h2
    · exact Or.inl (Or.inr ⟨h, Or.inl h2⟩)
    · rcases stateLtB_trichotomy a.state b.state with h3 | h3 | h3
      · exact Or.inl (Or.inr ⟨h, Or.inr ⟨h2, h3⟩⟩)
      · exact Or.inr (Or.inl ⟨h, h2, h3⟩)
      · exact Or.inr (Or.inr (Or.inr ⟨h.symm, Or.inr ⟨h2.symm, h3⟩⟩))
    · exact Or.inr (Or.inr (Or.inr ⟨h.symm, Or.inl h2⟩))
  · exact Or.inr (Or.inr (Or.inl h))

theorem nodeKeyLtB_congr {m y a : Node} (hf : m.f = y.f) (hg : m.g = y.g)
    (hs : m.state = y.state) : nodeKeyLtB y a = nodeKeyLtB m a := by
  unfold nodeKeyLtB
  rw [hf, hg, hs]

theorem nodeKeyLtB_false_trans {a m y : Node} (h1 : nodeKeyLtB m a = false)
    (h2 : nodeKeyLtB y m = false) : nodeKeyLtB y a = false := by
  by_contra hcon
  rw [Bool.not_eq_false] at hcon
  rcases nodeKeyLtB_trichotomy m y with h3 | ⟨hf, hg, hs⟩ | h3
  · have := nodeKeyLtB_trans h3 hcon
    rw [h1] at this
    exact Bool.false_ne_true this
  · rw [nodeKeyLtB_congr hf hg hs] at hcon
    rw [h1] at hcon
    exact Bool.false_ne_true hcon
  · rw [h2] at h3
    exact Bool.false_ne_true h3

theorem nodeKeyLtB_false_f_le {x y : Node} (h : nodeKeyLtB y x = false) : x.f ≤ y.f := by
  rcases nodeKeyLtB_trichotomy x y with h2 | ⟨hf, _, _⟩ | h2
  · rw [nodeKeyLtB_iff] at h2
    rcases h2 with h2 | ⟨h2, _⟩
    · exact le_of_lt h2
    · exact le_of_eq h2
  · exact le_of_eq hf
  · rw [h] at h2
    exact absurd h2 Bool.false_ne_true

theorem popMin_eq_none {l : List (Nat × Node)} (h : popMin l = none) : l = [] := by
  cases l with
  | nil => rfl
  | cons a xs =>
    unfold popMin at h
    cases hm : popMin xs with
    | none => rw [hm] at h; simp at h
    | some m =>
      rw [hm] at h
      dsimp only at h
      split at h <;> simp at h

theorem popMin_min {fr : List (Nat × Node)} {x : Nat × Node} {rest : List (Nat × Node)}
    (h : popMin fr = some (x, rest)) : ∀ y ∈ fr, nodeKeyLtB y.2 x.2 = false := by
  induction fr generalizing x rest with
  | nil => simp [popMin] at h
  | cons a xs ih =>
    unfold popMin at h
    cases hm : popMin xs with
    | none =>
      rw [hm] at h
      dsimp only at h
      rw [Option.some_inj, Prod.mk.injEq] at h
      rcases h with ⟨rfl, rfl⟩
      have hxs : xs = [] := popMin_eq_none hm
      subst hxs
      intro y hy
      rw [List.mem_singleton.1 hy]
      exact nodeKeyLtB_irrefl _
    | some m' =>
      obtain ⟨mm, rest'⟩ := m'
      rw [hm] at h
      dsimp only at h
      split at h
      case isTrue hlt =>
        rw [Option.some_inj, Prod.mk.injEq] at h
        rcases h with ⟨rfl, rfl⟩
        intro y hy
        rcases List.mem_cons.1 hy with rfl | hy2
        · by_contra hcon
          rw [Bool.not_eq_false] at hcon
          have := nodeKeyLtB_trans hlt hcon
          rw [nodeKeyLtB_irrefl] at this
          exact Bool.false_ne_true this
        · exact ih hm y hy2
      case isFalse hnlt =>
        rw [Option.some_inj, Prod.mk.injEq] at h
        rcases h with ⟨rfl, rfl⟩
        intro y hy
        rcases List.mem_cons.1 hy with rfl | hy2
        · exact nodeKeyLtB_irrefl _
        · have h1 : nodeKeyLtB mm.2 a.2 = false := by
            rw [← Bool.not_eq_true]
            exact hnlt
          exact nodeKeyLtB_false_trans h1 (ih hm y hy2)

/-- **C9 (amended).** The planner pops from its frontier an entry that is
least under the `heapq` node comparison: least `f = g + h`, ties broken
by smaller `g` and then by the lexicographic order of the state tuple —
not by insertion (FIFO) order. -/
theorem C9_pop_order (fr : List (Nat × Node)) (x : Nat × Node) (rest : List (Nat × Node))
    (h : popMin fr = some (x, rest)) :
    x ∈ fr ∧ ∀ y ∈ fr, nodeKeyLtB y.2 x.2 = false ∧ x.2.f ≤ y.2.f := by
  refine ⟨(popMin_mem h).1, fun y hy => ?_⟩
  have h1 := popMin_min h y hy
  exact ⟨h1, nodeKeyLtB_false_f_le h1⟩

/-- Witness for the amended C9: the heap pops the equal-`f` entry with
the smaller `g` even though it was inserted later. -/
theorem C9_pop_order_witness :
    ((1, (⟨2, 1, ([(0, 0), (1, 1)], []), none, none⟩ : Node)) ∈
      [(0, (⟨2, 2, ([], []), none, none⟩ : Node)),
       (1, (⟨2, 1, ([(0, 0), (1, 1)], []), none, none⟩ : Node))]) ∧
    ∀ y ∈ [(0, (⟨2, 2, ([], []), none, none⟩ : Node)),
       (1, (⟨2, 1, ([(0, 0), (1, 1)], []), none, none⟩ : Node))],
      nodeKeyLtB y.2 (⟨2, 1, ([(0, 0), (1, 1)], []), none, none⟩ : Node) = false ∧
      (2 : Int) ≤ y.2.f :=
  C9_pop_order _ _ [(0, (⟨2, 2, ([], []), none, none⟩ : Node))] (by decide)

/-- **C9 counterexample.** On a concrete 2×2 game with two seen cards,
the A* pop trace contains two pops with equal `f` where the node popped
earlier carries the larger push index: equal-`f` ties are not broken by
insertion (FIFO) order. -/
theorem C9_counterexample :
    ((astar_trace (snapshot ⟨2, [[1, 2], [2, 1]], [], 0, [((0, 0), 1), ((0, 1), 2)]⟩)
        ⟨2, [[1, 2], [2, 1]], [], 0, [((0, 0), 1), ((0, 1), 2)]⟩ 2).getD 1 (0, 0)).1 =
      ((astar_trace (snapshot ⟨2, [[1, 2], [2, 1]], [], 0, [((0, 0), 1), ((0, 1), 2)]⟩)
        ⟨2, [[1, 2], [2, 1]], [], 0, [((0, 0), 1), ((0, 1), 2)]⟩ 2).getD 2 (0, 0)).1 ∧
    ((astar_trace (snapshot ⟨2, [[1, 2], [2, 1]], [], 0, [((0, 0), 1), ((0, 1), 2)]⟩)
        ⟨2, [[1, 2], [2, 1]], [], 0, [((0, 0), 1), ((0, 1), 2)]⟩ 2).getD 2 (0, 0)).2 <
      ((astar_trace (snapshot ⟨2, [[1, 2], [2, 1]], [], 0, [((0, 0), 1), ((0, 1), 2)]⟩)
        ⟨2, [[1, 2], [2, 1]], [], 0, [((0, 0), 1), ((0, 1), 2)]⟩ 2).getD 1 (0, 0)).2 ∧
    2 < (astar_trace (snapshot ⟨2, [[1, 2], [2, 1]], [], 0, [((0, 0), 1), ((0, 1), 2)]⟩)
        ⟨2, [[1, 2], [2, 1]], [], 0, [((0, 0), 1), ((0, 1), 2)]⟩ 2).length := by
  decide
